import Mathlib

/-!
# The interactive shell of `examples/interactive_js.cpp`

A shallow embedding of class `InteractiveShell`: its variable table, its
expression recogniser and its read-eval-print loop, followed by the properties
of them that the specification states.

Conventions of the embedding.

* A `std::string` is the list of its `char`s (`Str`); a `size_t` is a `Nat`
  below `2 ^ 64`, with `npos = 2 ^ 64 - 1` and explicit wrap-around where the
  source adds to a position.
* `std::string::substr` and `std::string::erase` throw `std::out_of_range`
  when the position lies past the end; the embedding keeps that branch
  (`Except Exn`).
* `std::cout` is the list of the values inserted into it (`Tok`), oldest
  first; a `double` is inserted as the token `Tok.dbl`. The text that the
  stream shows for the insertions is `showOutput`; it is computed for every
  `double` that a decimal numeral denotes.
* A `double` is kept symbolic (`Dbl`): the number a decimal numeral denotes,
  or the result of `std::sqrt` / `std::pow`.
* `std::cin` is the list of the lines that successive `std::getline` calls
  deliver; at the end of the list `getline` fails.
* A `std::string` is shorter than `npos` (its `max_size()` is); the theorems
  assume this of the strings they start from, and derive it for the rest.
-/

namespace InteractiveShell

/-! ## Strings and positions -/

/-- A `std::string`, as the sequence of its characters. -/
abbrev Str := List Char

/-- The constant `std::string::npos`: the largest `size_t`. -/
def npos : Nat := 2 ^ 64 - 1

/-- Addition on `size_t`, which wraps around at `2 ^ 64`. -/
def size_add (a b : Nat) : Nat := (a + b) % 2 ^ 64

/-- What a library call may throw. -/
inductive Exn where
  | out_of_range
  deriving DecidableEq, Repr

deriving instance DecidableEq for Except

/-- The call `s.find(c)`: the index of the first `c` in `s`, `npos` when there is none. -/
def find_char (s : Str) (c : Char) : Nat :=
  let n := (s.takeWhile (fun x => x != c)).length
  if n < s.length then n else npos

/-- Index of the first position of `s` at which `pat` starts, if any. -/
def find_index (pat : Str) : Str → Option Nat
  | [] => if pat = [] then some 0 else none
  | c :: cs =>
    if pat.isPrefixOf (c :: cs) then some 0
    else (find_index pat cs).map (fun i => i + 1)

/-- The call `s.find(pat)` for a C string `pat`: the index of the first occurrence of
`pat` in `s`, `npos` when there is none. -/
def find_str (s pat : Str) : Nat :=
  (find_index pat s).getD npos

/-- The call `s.find_first_not_of(set)`: the index of the first character of `s` that is
not in `set`, `npos` when every character is in `set`. -/
def find_first_not_of (s set : Str) : Nat :=
  let n := (s.takeWhile (fun x => set.contains x)).length
  if n < s.length then n else npos

/-- The call `s.find_last_not_of(set)`: the index of the last character of `s` that is
not in `set`, `npos` when every character is in `set`. -/
def find_last_not_of (s set : Str) : Nat :=
  let n := (s.reverse.takeWhile (fun x => set.contains x)).length
  if n < s.length then s.length - 1 - n else npos

/-- The call `s.substr(pos, n)`: the characters of `s` from `pos` on, at most `n` of
them; throws when `pos > s.size()`. -/
def substr (s : Str) (pos n : Nat) : Except Exn Str :=
  if s.length < pos then Except.error Exn.out_of_range
  else Except.ok ((s.drop pos).take n)

/-- The call `s.erase(pos, n)`: `s` without the characters from `pos` on, at most `n` of
them; throws when `pos > s.size()`. -/
def erase (s : Str) (pos n : Nat) : Except Exn Str :=
  if s.length < pos then Except.error Exn.out_of_range
  else Except.ok (s.take pos ++ (s.drop pos).drop n)

/-- The two statements that the source repeats for `line`, `varName` and `valueExpr`:
`s.erase(0, s.find_first_not_of(" \t")); s.erase(s.find_last_not_of(" \t") + 1);`. -/
def trim_ws (s : Str) : Except Exn Str :=
  erase s 0 (find_first_not_of s " \t".toList) >>= fun s1 =>
  erase s1 (size_add (find_last_not_of s1 " \t".toList) 1) npos

/-! ## Numbers -/

/-- A `double`, kept symbolic. `dec t` is the `double` that the decimal numeral `t`
denotes (as `strtod` converts it, or the compiler for a literal of the source);
`sqrt` and `pow` are the results of `std::sqrt` and `std::pow`. Equal terms denote
equal `double`s. -/
inductive Dbl where
  | dec (text : Str)
  | sqrt (x : Dbl)
  | pow (x y : Dbl)
  deriving DecidableEq, Repr

/-- The test `std::isspace` in the classic locale. -/
def isspace (c : Char) : Bool :=
  c = ' ' || c = '\t' || c = '\n' || c = '\x0b' || c = '\x0c' || c = '\r'

/-- Decimal digit. -/
def isdigit (c : Char) : Bool :=
  decide ('0' ≤ c) && decide (c ≤ '9')

/-- The parts of a decimal floating-point numeral. -/
structure Numeral where
  /-- a leading minus sign -/
  neg : Bool
  /-- the digits before the point -/
  ip : Str
  /-- the digits after the point -/
  fp : Str
  /-- a minus sign in the exponent -/
  eneg : Bool
  /-- the digits of the exponent, empty when there is none -/
  ed : Str
  deriving DecidableEq, Repr

/-- An optional sign at the head of a numeral: whether it is a minus, and the rest. -/
def takeSign : Str → Bool × Str
  | [] => (false, [])
  | c :: r => if c = '-' then (true, r) else if c = '+' then (false, r) else (false, c :: r)

/-- An optional fraction: a point and the digits after it; and the rest. -/
def takeFraction : Str → Str × Str
  | [] => ([], [])
  | c :: r =>
    if c = '.' then (r.takeWhile isdigit, r.dropWhile isdigit) else ([], c :: r)

/-- An optional exponent that must reach the end of the text: `e` or `E`, an optional
sign, and at least one digit. -/
def takeExponent : Str → Option (Bool × Str)
  | [] => some (false, [])
  | c :: r =>
    if c = 'e' ∨ c = 'E' then
      if (takeSign r).2 ≠ [] ∧ (takeSign r).2.all isdigit = true then some (takeSign r) else none
    else none

/-- Reads the whole of `t` as one decimal floating-point numeral: an optional sign,
digits with an optional point (at least one digit), and an optional exponent.
`none` when `t` is not entirely such a numeral. This is when `strtod` converts a text
made of signs, digits, points and `e` up to its end. -/
def parseNumeral (t : Str) : Option Numeral :=
  let r := (takeSign t).2
  let ip := r.takeWhile isdigit
  let fr := takeFraction (r.dropWhile isdigit)
  if ip = [] ∧ fr.1 = [] then none
  else (takeExponent fr.2).map (fun e => Numeral.mk (takeSign t).1 ip fr.1 e.1 e.2)

/-- The number a string of digits denotes. -/
def digitsVal (ds : Str) : Nat :=
  ds.foldl (fun n c => 10 * n + (c.toNat - 48)) 0

/-- The number `2 ^ 1024 - 2 ^ 970`, half-way between the largest finite `double` and
`2 ^ 1024`: from here on a magnitude rounds to infinity. -/
def overflowThreshold : Nat :=
  179769313486231580793728971405303415079934132710037826936173778980444968292764750946649017977587207096330286416692887910946555547851940402630657488671505820681908902000708383676273854845817711531764475730270069855571366959622842914819860834936475292719074168444365510704342711559699508093042880177904174497792

/-- Whether the magnitude of the numeral rounds to infinity as a `double`. -/
def Numeral.overflows (n : Numeral) : Bool :=
  let m := digitsVal (n.ip ++ n.fp)
  let x : Int := (if n.eneg then -(digitsVal n.ed : Int) else (digitsVal n.ed : Int))
  let e : Int := x - (n.fp.length : Int)
  if 0 ≤ e then decide (overflowThreshold ≤ m * 10 ^ e.toNat)
  else decide (overflowThreshold * 10 ^ (-e).toNat ≤ m)

/-- Puts an accepted character in front of the field. -/
def accept (c : Char) (r : Str × Str) : Str × Str :=
  (c :: r.1, r.2)

/-- The loop of `std::num_get<char>::do_get` for a floating-point field (GNU libstdc++,
classic locale): accumulates characters while they can continue a numeral and stops
at the first that cannot. The flags are `found_mantissa` (a digit was seen),
`found_dec` (the point was seen), `found_sci` (the exponent letter was seen) and
`sign_ok` (a sign may stand here: at the very start, and right after the exponent
letter). Returns the accumulated field and the unread rest. The field is kept as
typed; the library writes `e` for `E` and keeps one of several leading zeros, which
denotes the same number. -/
def extract_float_loop : Str → Bool → Bool → Bool → Bool → Str × Str
  | [], _, _, _, _ => ([], [])
  | c :: cs, found_mantissa, found_dec, found_sci, sign_ok =>
    if isdigit c = true then
      accept c (extract_float_loop cs true found_dec found_sci false)
    else if c = '.' ∧ found_dec = false ∧ found_sci = false then
      accept c (extract_float_loop cs found_mantissa true found_sci false)
    else if (c = 'e' ∨ c = 'E') ∧ found_sci = false ∧ found_mantissa = true then
      accept c (extract_float_loop cs found_mantissa found_dec true true)
    else if (c = '+' ∨ c = '-') ∧ sign_ok = true then
      accept c (extract_float_loop cs found_mantissa found_dec found_sci false)
    else ([], c :: cs)

/-- The field that `num_get` accumulates from `s`, and the unread rest. -/
def extract_float (s : Str) : Str × Str :=
  extract_float_loop s false false false true

/-- The extraction `iss >> x` for `std::istringstream iss(s)` and `double x`
(GNU libstdc++, classic locale, default flags). Leading white space is skipped;
if nothing is left the extraction fails at the end of the stream. Otherwise the
longest field that can start a numeral is read and converted: the extraction
succeeds when the whole field is a numeral whose value is in the range of
`double`. The first component is the value when the extraction succeeds (the
stream then tests true), the second is `iss.eof()` afterwards: the end of the
stream was reached while reading. -/
def extract_double (s : Str) : Option Dbl × Bool :=
  let s1 := s.dropWhile isspace
  if s1 = [] then (none, true)
  else
    let field := extract_float s1
    match parseNumeral field.1 with
    | some n =>
      if n.overflows then (none, decide (field.2 = []))
      else (some (Dbl.dec field.1), decide (field.2 = []))
    | none => (none, decide (field.2 = []))

/-! ## The shell -/

/-- One insertion into `std::cout`. -/
inductive Tok where
  /-- a string literal of the source, or a `std::string` -/
  | text (s : Str)
  /-- an `int` -/
  | int (n : Int)
  /-- a `double` -/
  | dbl (d : Dbl)
  /-- the manipulator `std::endl` -/
  | endl
  deriving DecidableEq, Repr

/-- The contents of a `std::map<std::string, double>`: its entries in the order in
which the map iterates, ascending by key. -/
abbrev VarMap := List (Str × Dbl)

/-- The call `m.find(k)`: the value at key `k`, `none` for `m.end()`. -/
def map_find (m : VarMap) (k : Str) : Option Dbl :=
  m.lookup k

/-- The statement `m[k] = v`: overwrites the entry of `k`, or inserts it at its place
in key order (`std::less<std::string>`, the lexicographic order). -/
def map_set : VarMap → Str → Dbl → VarMap
  | [], k, v => [(k, v)]
  | (k1, v1) :: m, k, v =>
    if k = k1 then (k, v) :: m
    else if k < k1 then (k, v) :: (k1, v1) :: m
    else (k1, v1) :: map_set m k v

/-- An `InteractiveShell` object together with the output stream it writes to. -/
structure Shell where
  /-- the member `variables_` -/
  variables_ : VarMap
  /-- the member `running_` -/
  running_ : Bool
  /-- everything inserted into `std::cout` so far -/
  cout : List Tok
  deriving DecidableEq, Repr

/-- Inserts the tokens `ts` into `std::cout`. -/
def Shell.print (sh : Shell) (ts : List Tok) : Shell :=
  { sh with cout := sh.cout ++ ts }

/-- One line of text followed by `std::endl`. -/
def textLine (s : String) : List Tok :=
  [Tok.text s.toList, Tok.endl]

/-- The method `initialize` (source lines 26-32). -/
def initializeShell (sh : Shell) : Shell :=
  let sh1 := sh.print (textLine "SpiderMonkey stub: Interactive shell initialized")
  let sh2 := { sh1 with variables_ := map_set sh1.variables_ "PI".toList (Dbl.dec "3.14159265359".toList) }
  { sh2 with variables_ := map_set sh2.variables_ "E".toList (Dbl.dec "2.71828182846".toList) }

/-- The constructor (source lines 22-24): an empty map, `running_(true)`, then
`initialize()`. The argument is what `std::cout` holds already. -/
def newShell (cout : List Tok) : Shell :=
  initializeShell { variables_ := [], running_ := true, cout := cout }

/-- The sqrt branch of `evaluateSimpleExpression` (source lines 152-160): `some` of the
value it returns, `none` when control falls through to the next statement. -/
def sqrtBranch (expr : Str) : Except Exn (Option Dbl) :=
  if find_str expr "Math.sqrt(".toList = 0 then
    substr expr 10 npos >>= fun numStr =>
    substr numStr 0 (find_char numStr ')') >>= fun numStr =>
    match (extract_double numStr).1 with
    | some num => pure (some (Dbl.sqrt num))
    | none => pure none
  else pure none

/-- The pow branch of `evaluateSimpleExpression` (source lines 162-174): `some` of the
value it returns, `none` when control falls through to the next statement. -/
def powBranch (expr : Str) : Except Exn (Option Dbl) :=
  if find_str expr "Math.pow(".toList = 0 then
    substr expr 9 npos >>= fun args =>
    substr args 0 (find_char args ')') >>= fun args =>
    if find_char args ',' ≠ npos then
      substr args 0 (find_char args ',') >>= fun s1 =>
      substr args (size_add (find_char args ',') 1) npos >>= fun s2 =>
      match (extract_double s1).1, (extract_double s2).1 with
      | some base, some exp => pure (some (Dbl.pow base exp))
      | _, _ => pure none
    else pure none
  else pure none

/-- The last statements of `evaluateSimpleExpression` (source lines 176-184): the whole
expression read as a number, or the error line and `0`. -/
def numberFallback (sh : Shell) (expr : Str) : Dbl × Shell :=
  match extract_double expr with
  | (some result, true) => (result, sh)
  | _ => (Dbl.dec "0".toList, sh.print (textLine "Error: Cannot evaluate expression"))

/-- The method `evaluateSimpleExpression` (source lines 135-185). In the first branch
`variables_[expr]` reads an entry that `find` has just found, so it inserts nothing. -/
def evaluateSimpleExpression (sh : Shell) (expr : Str) : Except Exn (Dbl × Shell) :=
  match map_find sh.variables_ expr with
  | some v => pure (v, sh)
  | none =>
    if expr = "2 + 3".toList then pure (Dbl.dec "5".toList, sh)
    else if expr = "2 + 3 * 4".toList then pure (Dbl.dec "14".toList, sh)
    else if expr = "10 / 2".toList then pure (Dbl.dec "5".toList, sh)
    else if expr = "3 * 3".toList then pure (Dbl.dec "9".toList, sh)
    else if expr = "Math.PI".toList then pure (Dbl.dec "3.14159265359".toList, sh)
    else if expr = "Math.E".toList then pure (Dbl.dec "2.71828182846".toList, sh)
    else
      sqrtBranch expr >>= fun r1 =>
      match r1 with
      | some v => pure (v, sh)
      | none =>
        powBranch expr >>= fun r2 =>
        match r2 with
        | some v => pure (v, sh)
        | none => pure (numberFallback sh expr)

/-- The method `handleAssignment` (source lines 116-133). -/
def handleAssignment (sh : Shell) (expr : Str) : Except Exn Shell :=
  if find_char expr '=' = npos then pure sh
  else
    substr expr 0 (find_char expr '=') >>= fun varName =>
    substr expr (size_add (find_char expr '=') 1) npos >>= fun valueExpr =>
    trim_ws varName >>= fun varName =>
    trim_ws valueExpr >>= fun valueExpr =>
    evaluateSimpleExpression sh valueExpr >>= fun r =>
    pure ({ r.2 with variables_ := map_set r.2.variables_ varName r.1 }.print
      [Tok.text varName, Tok.text " = ".toList, Tok.dbl r.1, Tok.endl])

/-- The method `evaluateExpression` (source lines 102-114). -/
def evaluateExpression (sh : Shell) (expr : Str) : Except Exn Shell :=
  let sh1 := sh.print [Tok.text "SpiderMonkey stub: Evaluating '".toList, Tok.text expr,
    Tok.text "'".toList, Tok.endl]
  if find_char expr '=' ≠ npos ∧ find_str expr "==".toList = npos then
    handleAssignment sh1 expr
  else
    evaluateSimpleExpression sh1 expr >>= fun r =>
    pure (r.2.print [Tok.dbl r.1, Tok.endl])

/-- The method `showHelp` (source lines 187-207). -/
def showHelp (sh : Shell) : Shell :=
  sh.print (textLine "Interactive Shell Commands:"
    ++ textLine "  help - Show this help message"
    ++ textLine "  clear - Clear the screen"
    ++ textLine "  vars - Show defined variables"
    ++ textLine "  version - Show SpiderMonkey version"
    ++ textLine "  gc - Force garbage collection (simulated)"
    ++ textLine "  exit, quit - Exit the shell"
    ++ [Tok.endl]
    ++ textLine "Expression Examples (Demo Mode):"
    ++ textLine "  2 + 3"
    ++ textLine "  2 + 3 * 4"
    ++ textLine "  Math.PI"
    ++ textLine "  Math.sqrt(16)"
    ++ textLine "  Math.pow(2, 8)"
    ++ textLine "  x = 42"
    ++ textLine "  x"
    ++ [Tok.endl]
    ++ textLine "Note: This is a demonstration shell."
    ++ textLine "Install SpiderMonkey library for full JavaScript support.")

/-- What `showVariables` prints for one entry of the map. -/
def varLine (p : Str × Dbl) : List Tok :=
  [Tok.text "  ".toList, Tok.text p.1, Tok.text " = ".toList, Tok.dbl p.2, Tok.endl]

/-- The method `showVariables` (source lines 209-219). -/
def showVariables (sh : Shell) : Shell :=
  if sh.variables_.isEmpty then sh.print (textLine "No variables defined")
  else sh.print (textLine "Defined variables:" ++ (sh.variables_.map varLine).flatten)

/-- The method `processCommand` (source lines 67-100). -/
def processCommand (sh : Shell) (input : Str) : Except Exn Shell :=
  if input = "exit".toList ∨ input = "quit".toList then pure { sh with running_ := false }
  else if input = "help".toList then pure (showHelp sh)
  else if input = "clear".toList then pure (sh.print [Tok.text "\x1b[2J\x1b[1;1H".toList])
  else if input = "vars".toList then pure (showVariables sh)
  else if input = "version".toList then pure (sh.print (textLine "SpiderMonkey 128.0.0 (Demo Mode)"))
  else if input = "gc".toList then
    pure (sh.print (textLine "Garbage collection completed (simulated)"))
  else evaluateExpression sh input

/-- The prompt that `run` prints before it reads a line (source line 45). -/
def prompt (lineNumber : Int) : List Tok :=
  [Tok.text "js:".toList, Tok.int lineNumber, Tok.text "> ".toList]

/-- The body of the loop of `run` after a line was read (source lines 51-60): the shell
and the local `lineNumber` afterwards. The `int` is not bounded here; it would
overflow only after `2 ^ 31 - 1` processed lines, and what is proved of its value
is proved for fewer. -/
def loopBody (sh : Shell) (lineNumber : Int) (line : Str) : Except Exn (Shell × Int) :=
  trim_ws line >>= fun line =>
  if line.isEmpty then pure (sh, lineNumber)
  else processCommand sh line >>= fun sh1 => pure (sh1, lineNumber + 1)

/-- The loop of `run` (source lines 44-61) over the lines that are still to come from
`std::cin`. -/
def runLoop : Shell → Int → List Str → Except Exn (Shell × Int)
  | sh, lineNumber, input =>
    if sh.running_ = true then
      match input with
      | [] => pure (sh.print (prompt lineNumber), lineNumber)
      | line :: rest =>
        loopBody (sh.print (prompt lineNumber)) lineNumber line >>= fun r =>
        runLoop r.1 r.2 rest
    else pure (sh, lineNumber)

/-- The second line of the banner: 52 equals signs. -/
def bannerRule : String :=
  String.mk (List.replicate 52 '=')

/-- The banner that `run` prints first (source lines 35-39). -/
def bannerText : List Tok :=
  textLine "SpiderMonkey Interactive JavaScript Shell (Demo Mode)"
    ++ textLine bannerRule
    ++ textLine "Type expressions to evaluate. Use 'help' for commands."
    ++ textLine "Note: This is a demonstration - install SpiderMonkey for full JS support."
    ++ [Tok.endl]

/-- The method `run` (source lines 34-64). -/
def run (sh : Shell) (input : List Str) : Except Exn Shell :=
  let sh1 := sh.print bannerText
  runLoop sh1 1 input >>= fun r =>
  pure (r.1.print (textLine "Goodbye!"))

/-- The function `main` (source lines 222-226) on the input lines `input`: what it
leaves in the shell and on `std::cout`. -/
def main (input : List Str) : Except Exn Shell :=
  run (newShell []) input

/-- The numbers that the prompts in an output show, oldest first. The prompt is the
only place where the shell prints an `int`. -/
def promptNumbers (out : List Tok) : List Int :=
  out.filterMap (fun t => match t with | Tok.int n => some n | _ => none)

/-! ## How the stream shows a number

The shell never sets a precision or a format flag, so `std::cout << x` shows a
`double` as `printf("%.6g", x)` does: six significant digits, fixed or scientific
notation by the size of the number, trailing zeros removed. The functions below
compute that text exactly for a `double` given by a decimal numeral: first the
nearest `double` (round to nearest, ties to even), then the digits of its exact
value. For the result of `std::sqrt` or `std::pow` no text is computed. -/

/-- Division of naturals rounded to the nearest, ties to even (`b` positive). -/
def divRoundEven (a b : Nat) : Nat :=
  if 2 * (a % b) < b then a / b
  else if b < 2 * (a % b) then a / b + 1
  else if (a / b) % 2 = 0 then a / b else a / b + 1

/-- Number of digits of `n` in base `b`, at most `fuel`. -/
def digitCount (b : Nat) : Nat → Nat → Nat
  | 0, _ => 0
  | fuel + 1, n => if n = 0 then 0 else digitCount b fuel (n / b) + 1

/-- Number of binary digits of `n` (`0` for `0`). -/
def bitLength (n : Nat) : Nat :=
  digitCount 2 n n

/-- Number of decimal digits of `n` (`0` for `0`). -/
def decLength (n : Nat) : Nat :=
  digitCount 10 n n

/-- Whether `num / den` is at least `b ^ x`. -/
def atLeastPow (b num den : Nat) (x : Int) : Bool :=
  if 0 ≤ x then decide (den * b ^ x.toNat ≤ num) else decide (den ≤ num * b ^ (-x).toNat)

/-- The quotient `num / den` divided by `b ^ x`, rounded to the nearest natural, ties
to even. -/
def scaleRound (b num den : Nat) (x : Int) : Nat :=
  if 0 ≤ x then divRoundEven num (den * b ^ x.toNat)
  else divRoundEven (num * b ^ (-x).toNat) den

/-- The exponent `x` with `b ^ x ≤ num / den < b ^ (x + 1)`, from the digit counts `dn`
and `dd` of `num` and `den` in base `b` (`num` and `den` positive). -/
def floorLog (b num den dn dd : Nat) : Int :=
  if atLeastPow b num den ((dn : Int) - (dd : Int)) then (dn : Int) - (dd : Int)
  else (dn : Int) - (dd : Int) - 1

/-- The magnitude of a finite `double`: `mant * 2 ^ exp2`. -/
structure Dyadic where
  /-- the significand, below `2 ^ 53` -/
  mant : Nat
  /-- the binary exponent, at least `-1074` -/
  exp2 : Int
  deriving DecidableEq, Repr

/-- The `double` nearest to the positive quotient `num / den`, ties to even; the
significand has 53 bits, fewer below the normal range. Overflow is not looked at
here: the extraction has rejected such numerals. -/
def nearestDouble (num den : Nat) : Dyadic :=
  let k : Int := max (floorLog 2 num den (bitLength num) (bitLength den) - 52) (-1074)
  let m := scaleRound 2 num den k
  if m = 2 ^ 53 then Dyadic.mk (2 ^ 52) (k + 1) else Dyadic.mk m k

/-- The decimal digit with value `d`. -/
def digitChar (d : Nat) : Char :=
  Char.ofNat (48 + d % 10)

/-- The six decimal digits of `d`, for `d` below `10 ^ 6`. -/
def sixDigits (d : Nat) : Str :=
  [digitChar (d / 100000), digitChar (d / 10000), digitChar (d / 1000), digitChar (d / 100),
    digitChar (d / 10), digitChar d]

/-- The string `s` without its trailing zeros. -/
def stripZeros (s : Str) : Str :=
  (s.reverse.dropWhile (fun c => c = '0')).reverse

/-- A fraction part: nothing, or a point and the digits. -/
def pointAnd (frac : Str) : Str :=
  if frac = [] then [] else '.' :: frac

/-- The text of `printf("%.6g")` for the number with the six significant digits `ds`
and the decimal exponent `x`: scientific notation when `x < -4` or `x ≥ 6`, fixed
notation otherwise; trailing zeros are removed; the exponent has at least two
digits. -/
def formatG (ds : Str) (x : Int) : Str :=
  if x < -4 ∨ 6 ≤ x then
    ds.take 1 ++ pointAnd (stripZeros (ds.drop 1))
      ++ 'e' :: (if x < 0 then '-' else '+')
      :: ((if x.natAbs < 10 then ['0'] else []) ++ (Nat.repr x.natAbs).toList)
  else if 0 ≤ x then
    ds.take (x.toNat + 1) ++ pointAnd (stripZeros (ds.drop (x.toNat + 1)))
  else
    '0' :: '.' :: (List.replicate ((-x).toNat - 1) '0' ++ stripZeros ds)

/-- The text of `printf("%.6g")` for the positive quotient `num / den`. -/
def showQuotient (num den : Nat) : Str :=
  let x := floorLog 10 num den (decLength num) (decLength den)
  let d := scaleRound 10 num den (x - 5)
  if d = 1000000 then formatG (sixDigits 100000) (x + 1) else formatG (sixDigits d) x

/-- The text of `printf("%.6g")` for the `double` with magnitude `v`. -/
def showDyadic (neg : Bool) (v : Dyadic) : Str :=
  (if neg then ['-'] else [])
    ++ (if v.mant = 0 then ['0']
        else if 0 ≤ v.exp2 then showQuotient (v.mant * 2 ^ v.exp2.toNat) 1
        else showQuotient v.mant (2 ^ (-v.exp2).toNat))

/-- The text of `printf("%.6g")` for the `double` that the numeral `n` denotes. -/
def showNumeral (n : Numeral) : Str :=
  let m := digitsVal (n.ip ++ n.fp)
  let x : Int := (if n.eneg then -(digitsVal n.ed : Int) else (digitsVal n.ed : Int))
  let e : Int := x - (n.fp.length : Int)
  if m = 0 then showDyadic n.neg (Dyadic.mk 0 0)
  else if 0 ≤ e then showDyadic n.neg (nearestDouble (m * 10 ^ e.toNat) 1)
  else showDyadic n.neg (nearestDouble m (10 ^ (-e).toNat))

/-- What `std::cout << d` shows for a `double` given by a decimal numeral; `none` for
the result of `std::sqrt` or `std::pow`, whose digits are not computed here, and for
a text that is no numeral in the range of `double`. -/
def showDouble : Dbl → Option Str
  | Dbl.dec t =>
    match parseNumeral t with
    | some n => if n.overflows then none else some (showNumeral n)
    | none => none
  | Dbl.sqrt _ => none
  | Dbl.pow _ _ => none

/-- The characters that one insertion puts on the terminal. -/
def showTok : Tok → Option Str
  | Tok.text s => some s
  | Tok.int n => some (toString n).toList
  | Tok.dbl d => showDouble d
  | Tok.endl => some ['\n']

/-- The text that a sequence of insertions puts on the terminal; `none` when it
holds a `double` whose digits are not computed. -/
def showOutput : List Tok → Option Str
  | [] => some []
  | t :: ts =>
    match showTok t, showOutput ts with
    | some a, some b => some (a ++ b)
    | _, _ => none

/-! ## Notions of the specification -/

/-- A space or a tab: the characters that the shell trims. -/
def isBlank (c : Char) : Bool :=
  c = ' ' || c = '\t'

/-- The string `s` without its leading and trailing spaces and tabs. -/
def trim (s : Str) : Str :=
  ((s.dropWhile isBlank).reverse.dropWhile isBlank).reverse

/-- The string `s` without its trailing spaces and tabs. -/
def rtrim (s : Str) : Str :=
  (s.reverse.dropWhile isBlank).reverse

/-- The first character of an identifier: a letter, `_` or `$`. -/
def isIdentStart (c : Char) : Bool :=
  c.isAlpha || c = '_' || c = '$'

/-- A further character of an identifier: a letter, a digit, `_` or `$`. -/
def isIdentPart (c : Char) : Bool :=
  c.isAlphanum || c = '_' || c = '$'

/-- Whether `v` is an identifier. -/
def isIdentifier : Str → Bool
  | [] => false
  | c :: cs => isIdentStart c && cs.all isIdentPart

/-- The seven control commands of the shell. -/
def controlWords : List Str :=
  ["exit".toList, "quit".toList, "help".toList, "clear".toList, "vars".toList,
    "version".toList, "gc".toList]

/-- What the evaluator prints when it does not recognise an expression. -/
def errorLine : List Tok :=
  textLine "Error: Cannot evaluate expression"

/-- The argument text of a call: what follows the first `n` characters of `expr` (the
function name and the opening parenthesis) up to the first `)`, or up to the end of
`expr` when it has no `)`. -/
def argumentText (n : Nat) (expr : Str) : Str :=
  (expr.drop n).takeWhile (fun x => x != ')')

/-- The value of the sqrt form, when the stream reads a number at the head of the
argument text. -/
def sqrtValue (expr : Str) : Option Dbl :=
  ((extract_double (argumentText 10 expr)).1).map Dbl.sqrt

/-- The value of the pow form: the argument text must have a comma, and the stream
must read a number at the head of the text on each side of the first comma. -/
def powValue (expr : Str) : Option Dbl :=
  if ',' ∈ argumentText 9 expr then
    match (extract_double ((argumentText 9 expr).takeWhile (fun x => x != ','))).1,
      (extract_double ((argumentText 9 expr).dropWhile (fun x => x != ',')).tail).1 with
    | some base, some exp => some (Dbl.pow base exp)
    | _, _ => none
  else none

/-- Whether the shell takes the line `t` for an assignment: it has an `=` and no `==`. -/
def isAssignment (t : Str) : Prop :=
  '=' ∈ t ∧ ¬ ("==".toList <:+: t)

instance (t : Str) : Decidable (isAssignment t) :=
  inferInstanceAs (Decidable (_ ∧ _))

/-- The name an assignment assigns to: what stands before the first `=`, trimmed. -/
def targetName (t : Str) : Str :=
  trim (t.takeWhile (fun x => x != '='))

/-- The right-hand side of an assignment: what stands after the first `=`, trimmed. -/
def valueText (t : Str) : Str :=
  trim (t.dropWhile (fun x => x != '=')).tail

/-- What `evaluateExpression` prints first: the expression, quoted. -/
def echoLine (expr : Str) : List Tok :=
  [Tok.text "SpiderMonkey stub: Evaluating '".toList, Tok.text expr, Tok.text "'".toList,
    Tok.endl]

/-- Whether the line `t` is `exit` or `quit`. -/
def isExit (t : Str) : Prop :=
  t = "exit".toList ∨ t = "quit".toList

instance (t : Str) : Decidable (isExit t) :=
  inferInstanceAs (Decidable (_ ∨ _))

/-- The numbers that the prompts show when the loop starts at `n` and reads the lines
`input` to the end: one prompt before every read, the failing last one included; a
line advances the number when it is not empty after trimming. -/
def promptSeq : Int → List Str → List Int
  | n, [] => [n]
  | n, l :: ls => n :: promptSeq (if trim l = [] then n else n + 1) ls

/-- How many of the lines are not empty after trimming. -/
def countProcessed (ls : List Str) : Nat :=
  (ls.filter (fun l => decide (trim l ≠ []))).length

/-- Whether the text `t` is, from its first to its last character, one decimal
floating-point literal. -/
def isFloatLiteral (t : Str) : Bool :=
  (parseNumeral t).isSome

/-- Whether the text `t` is entirely one decimal floating-point literal whose value the
stream accepts: it does not overflow a `double`. -/
def acceptedNumber (t : Str) : Bool :=
  match parseNumeral t with
  | some n => !n.overflows
  | none => false

/-- The largest value of the `int` that holds `lineNumber`. -/
def intMax : Int := 2147483647

/-- Whether the names of a store stand in strictly ascending order. -/
def keysAscending (m : VarMap) : Prop :=
  (m.map Prod.fst).Pairwise (fun a b => a < b)

instance (m : VarMap) : Decidable (keysAscending m) :=
  inferInstanceAs (Decidable (List.Pairwise _ _))

/-- The six strings of the literal table of `evaluateSimpleExpression`. -/
def literalKeys : List Str :=
  ["2 + 3".toList, "2 + 3 * 4".toList, "10 / 2".toList, "3 * 3".toList, "Math.PI".toList,
    "Math.E".toList]

/-! ## Strings: the library calls -/

theorem blank_set (x : Char) : " \t".toList.contains x = isBlank x := by
  by_cases h1 : x = ' '
  · subst h1; rfl
  · by_cases h2 : x = '\t'
    · subst h2; rfl
    · simp [isBlank, h1, h2]

theorem blank_set_fun : (fun x => " \t".toList.contains x) = isBlank :=
  funext blank_set

theorem drop_length_takeWhile (p : Char → Bool) (s : Str) :
    s.drop (s.takeWhile p).length = s.dropWhile p := by
  induction s with
  | nil => simp
  | cons c cs ih =>
    by_cases h : p c = true
    · simp [List.takeWhile_cons, List.dropWhile_cons, h, ih]
    · simp [List.takeWhile_cons, List.dropWhile_cons, h]

theorem take_length_takeWhile (p : Char → Bool) (s : Str) :
    s.take (s.takeWhile p).length = s.takeWhile p := by
  induction s with
  | nil => simp
  | cons c cs ih =>
    by_cases h : p c = true
    · simp [List.takeWhile_cons, h, ih]
    · simp [List.takeWhile_cons, h]

theorem length_takeWhile_add (p : Char → Bool) (s : Str) :
    (s.takeWhile p).length + (s.dropWhile p).length = s.length := by
  have h := congrArg List.length (List.takeWhile_append_dropWhile p s)
  rw [List.length_append] at h
  exact h

theorem npos_val : npos = 18446744073709551615 := by
  decide

/-- The first `erase` of the trimming statements removes the leading blanks. -/
theorem erase_leading (s : Str) (h : s.length < npos) :
    erase s 0 (find_first_not_of s " \t".toList) = Except.ok (s.dropWhile isBlank) := by
  have hl := length_takeWhile_add isBlank s
  simp only [erase, find_first_not_of, blank_set_fun]
  simp only [Nat.not_lt_zero, if_false, List.take_zero, List.nil_append, List.drop_zero]
  split
  · rw [drop_length_takeWhile]
  · rename_i hn
    have h0 : (s.dropWhile isBlank).length = 0 := by omega
    have h1 : s.dropWhile isBlank = [] := List.length_eq_zero.mp h0
    rw [h1, List.drop_eq_nil_iff.mpr (by omega)]

/-- The second `erase` of the trimming statements removes the trailing blanks. -/
theorem erase_trailing (s : Str) (h : s.length < npos) :
    erase s (size_add (find_last_not_of s " \t".toList) 1) npos
      = Except.ok (s.reverse.dropWhile isBlank).reverse := by
  have hl := length_takeWhile_add isBlank s.reverse
  have hs : s = (s.reverse.dropWhile isBlank).reverse ++ (s.reverse.takeWhile isBlank).reverse := by
    have := congrArg List.reverse (List.takeWhile_append_dropWhile isBlank s.reverse)
    rw [List.reverse_append, List.reverse_reverse] at this
    exact this.symm
  rw [npos_val] at h
  simp only [List.length_reverse] at hl
  simp only [find_last_not_of, blank_set_fun, size_add, npos_val]
  split
  · rename_i hn
    have hpos : (s.length - 1 - (s.reverse.takeWhile isBlank).length + 1) % 2 ^ 64
        = (s.reverse.dropWhile isBlank).reverse.length := by
      rw [Nat.mod_eq_of_lt (by omega)]
      simp only [List.length_reverse]
      omega
    rw [hpos]
    simp only [erase]
    rw [if_neg (by simp only [List.length_reverse]; omega)]
    congr 1
    have hd : (List.drop (s.reverse.dropWhile isBlank).reverse.length s).length
        ≤ 18446744073709551615 := by
      simp only [List.length_drop]; omega
    rw [List.drop_eq_nil_iff.mpr hd, List.append_nil]
    conv => lhs; rw [hs]
    simp
  · rename_i hn
    have h0 : (s.reverse.dropWhile isBlank).length = 0 := by omega
    have h1 : s.reverse.dropWhile isBlank = [] := List.length_eq_zero.mp h0
    rw [h1]
    simp only [erase]
    norm_num
    omega

theorem length_dropWhile_le (p : Char → Bool) (s : Str) : (s.dropWhile p).length ≤ s.length := by
  have := length_takeWhile_add p s
  omega

/-- The trimming statements of the source compute `trim`, and do not throw. -/
theorem trim_ws_eq (s : Str) (h : s.length < npos) : trim_ws s = Except.ok (trim s) := by
  have h1 : (s.dropWhile isBlank).length < npos :=
    Nat.lt_of_le_of_lt (length_dropWhile_le isBlank s) h
  simp only [trim_ws, erase_leading s h, bind, Except.bind, erase_trailing _ h1, trim]

theorem length_trim_le (s : Str) : (trim s).length ≤ s.length := by
  simp only [trim, List.length_reverse]
  exact Nat.le_trans (length_dropWhile_le _ _)
    (by simpa using length_dropWhile_le isBlank s)

theorem find_char_cases (s : Str) (c : Char) :
    (find_char s c = npos ∧ s.takeWhile (fun x => x != c) = s)
    ∨ (find_char s c = (s.takeWhile (fun x => x != c)).length
        ∧ (s.takeWhile (fun x => x != c)).length < s.length) := by
  have hl := length_takeWhile_add (fun x => x != c) s
  by_cases h : (s.takeWhile (fun x => x != c)).length < s.length
  · right
    exact ⟨by simp only [find_char, if_pos h], h⟩
  · left
    refine ⟨by simp only [find_char, if_neg h], ?_⟩
    have h0 : (s.dropWhile (fun x => x != c)).length = 0 := by omega
    have h1 := List.takeWhile_append_dropWhile (fun x => x != c) s
    rw [List.length_eq_zero.mp h0, List.append_nil] at h1
    exact h1

theorem find_char_ne_npos (s : Str) (c : Char)
    (hne : find_char s c ≠ npos) :
    find_char s c = (s.takeWhile (fun x => x != c)).length ∧ find_char s c < s.length := by
  rcases find_char_cases s c with ⟨h1, _⟩ | ⟨h1, h2⟩
  · exact absurd h1 hne
  · exact ⟨h1, h1 ▸ h2⟩

theorem takeWhile_ne_eq_self (s : Str) (c : Char) :
    s.takeWhile (fun x => x != c) = s ↔ c ∉ s := by
  induction s with
  | nil => simp
  | cons a as ih =>
    by_cases h : a = c
    · subst h; simp [List.takeWhile_cons]
    · have h2 : ¬ c = a := fun e => h e.symm
      simp [List.takeWhile_cons, h, h2, ih]

theorem find_char_eq_npos_iff (s : Str) (c : Char) (h : s.length < npos) :
    find_char s c = npos ↔ c ∉ s := by
  rw [← takeWhile_ne_eq_self]
  rcases find_char_cases s c with ⟨h1, h2⟩ | ⟨h1, h2⟩
  · exact ⟨fun _ => h2, fun _ => h1⟩
  · constructor
    · intro e
      rw [h1] at e
      omega
    · intro e
      rw [e] at h2
      omega

/-- The call `s.substr(0, s.find(c))` is the part of `s` before the first `c`, and
the whole of `s` when there is no `c`. -/
theorem substr_upto (s : Str) (c : Char) (h : s.length < npos) :
    substr s 0 (find_char s c) = Except.ok (s.takeWhile (fun x => x != c)) := by
  simp only [substr, Nat.not_lt_zero, if_false, List.drop_zero]
  rcases find_char_cases s c with ⟨h1, h2⟩ | ⟨h1, _⟩
  · rw [h1, h2, List.take_of_length_le (Nat.le_of_lt h)]
  · rw [h1, take_length_takeWhile]

/-- The call `s.substr(s.find(c) + 1)` is the part of `s` after the first `c`. -/
theorem substr_after (s : Str) (c : Char) (h : s.length < npos)
    (hne : find_char s c ≠ npos) :
    substr s (size_add (find_char s c) 1) npos
      = Except.ok (s.dropWhile (fun x => x != c)).tail := by
  obtain ⟨h1, h2⟩ := find_char_ne_npos s c hne
  rw [npos_val] at h
  have hp : size_add (find_char s c) 1 = find_char s c + 1 := by
    simp only [size_add]
    exact Nat.mod_eq_of_lt (by omega)
  rw [hp]
  simp only [substr]
  rw [if_neg (by omega)]
  congr 1
  rw [List.take_of_length_le (by simp only [List.length_drop, npos_val]; omega)]
  rw [h1, ← List.drop_drop, drop_length_takeWhile, List.drop_one]

theorem find_str_zero_iff (s pat : Str) (hp : pat ≠ []) :
    find_str s pat = 0 ↔ pat.isPrefixOf s = true := by
  cases s with
  | nil =>
    cases pat with
    | nil => exact absurd rfl hp
    | cons a as => simp [find_str, find_index, npos_val]
  | cons c cs =>
    by_cases h : pat.isPrefixOf (c :: cs) = true
    · simp [find_str, find_index, h]
    · simp only [find_str, find_index, h]
      cases find_index pat cs with
      | none => simp [npos_val]
      | some i => simp

theorem substr_rest (s : Str) (n : Nat) (h : s.length < npos) (hn : n ≤ s.length) :
    substr s n npos = Except.ok (s.drop n) := by
  simp only [substr]
  rw [if_neg (by omega), List.take_of_length_le (by simp only [List.length_drop]; omega)]

theorem length_of_isPrefixOf (pat s : Str) (h : pat.isPrefixOf s = true) :
    pat.length ≤ s.length := by
  rw [ List.isPrefixOf_iff_prefix] at h
  exact h.length_le

theorem find_index_none_iff (pat s : Str) :
    find_index pat s = none ↔ ¬ (pat <:+: s) := by
  induction s with
  | nil =>
    by_cases h : pat = []
    · simp [find_index, h]
    · simp [find_index, h]
  | cons c cs ih =>
    rw [List.infix_cons_iff]
    by_cases h : pat.isPrefixOf (c :: cs) = true
    · have h2 := h
      rw [ List.isPrefixOf_iff_prefix] at h2
      simp [find_index, h, h2]
    · have h2 : ¬ (pat <+: c :: cs) := fun e => h (List.isPrefixOf_iff_prefix.mpr e)
      simp only [find_index, h, Bool.false_eq_true, if_false, Option.map_eq_none', ih, h2,
        false_or]

theorem find_index_le (pat s : Str) (i : Nat) (h : find_index pat s = some i) :
    i ≤ s.length := by
  induction s generalizing i with
  | nil =>
    by_cases hp : pat = []
    · simp [find_index, hp] at h
      omega
    · simp [find_index, hp] at h
  | cons c cs ih =>
    by_cases hp : pat.isPrefixOf (c :: cs) = true
    · simp [find_index, hp] at h
      omega
    · simp only [find_index, hp, Bool.false_eq_true, if_false, Option.map_eq_some'] at h
      obtain ⟨j, hj, e⟩ := h
      have := ih j hj
      simp only [List.length_cons]
      omega

theorem find_str_eq_npos_iff (s pat : Str) (h : s.length < npos) :
    find_str s pat = npos ↔ ¬ (pat <:+: s) := by
  rw [← find_index_none_iff]
  cases e : find_index pat s with
  | none => simp [find_str, e]
  | some i =>
    have := find_index_le pat s i e
    simp only [find_str, e, Option.getD_some]
    constructor
    · intro x; omega
    · intro x; cases x

/-! ## The evaluator -/

/-- The sqrt branch never throws; it is taken exactly on the prefix `Math.sqrt(`. -/
theorem sqrtBranch_eq (expr : Str) (h : expr.length < npos) :
    sqrtBranch expr
      = Except.ok (if "Math.sqrt(".toList.isPrefixOf expr = true then sqrtValue expr else none) := by
  simp only [sqrtBranch]
  have hz := find_str_zero_iff expr "Math.sqrt(".toList (by decide)
  by_cases hp : "Math.sqrt(".toList.isPrefixOf expr = true
  · have hl := length_of_isPrefixOf _ _ hp
    have h10 : "Math.sqrt(".toList.length = 10 := by decide
    rw [h10] at hl
    have hd : (expr.drop 10).length < npos := by
      simp only [List.length_drop]; omega
    rw [if_pos (hz.mpr hp), if_pos hp, substr_rest expr 10 h hl]
    simp only [bind, Except.bind, substr_upto _ _ hd, sqrtValue, argumentText]
    cases (extract_double (List.takeWhile (fun x => x != ')') (List.drop 10 expr))).1 <;> rfl
  · rw [if_neg (fun e => hp (hz.mp e)), if_neg hp]
    rfl

/-- The pow branch never throws; it is taken exactly on the prefix `Math.pow(`. -/
theorem powBranch_eq (expr : Str) (h : expr.length < npos) :
    powBranch expr
      = Except.ok (if "Math.pow(".toList.isPrefixOf expr = true then powValue expr else none) := by
  simp only [powBranch]
  have hz := find_str_zero_iff expr "Math.pow(".toList (by decide)
  by_cases hp : "Math.pow(".toList.isPrefixOf expr = true
  · have hl := length_of_isPrefixOf _ _ hp
    have h9 : "Math.pow(".toList.length = 9 := by decide
    rw [h9] at hl
    have hd : (expr.drop 9).length < npos := by
      simp only [List.length_drop]; omega
    have ha : (argumentText 9 expr).length < npos := by
      have := length_takeWhile_add (fun x => x != ')') (expr.drop 9)
      simp only [argumentText]
      omega
    rw [if_pos (hz.mpr hp), if_pos hp, substr_rest expr 9 h hl]
    simp only [bind, Except.bind, substr_upto _ _ hd, powValue]
    change (if find_char (argumentText 9 expr) ',' ≠ npos then _ else _) = _
    by_cases hc : find_char (argumentText 9 expr) ',' = npos
    · have hm := (find_char_eq_npos_iff _ _ ha).mp hc
      rw [if_neg (by simp [hc]), if_neg hm]
      rfl
    · have hm : ',' ∈ argumentText 9 expr := by
        by_contra hm
        exact hc ((find_char_eq_npos_iff _ _ ha).mpr hm)
      have e1 := substr_upto _ ',' ha
      have e2 := substr_after _ ',' ha hc
      rw [if_pos hc, if_pos hm]
      simp only [argumentText] at e1 e2 ⊢
      rw [e1]
      simp only []
      rw [e2]
      simp only []
      cases (extract_double (List.takeWhile (fun x => x != ',')
          (List.takeWhile (fun x => x != ')') (List.drop 9 expr)))).1 <;>
        cases (extract_double (List.dropWhile (fun x => x != ',')
          (List.takeWhile (fun x => x != ')') (List.drop 9 expr))).tail).1 <;> rfl
  · rw [if_neg (fun e => hp (hz.mp e)), if_neg hp]
    rfl

theorem numberFallback_cases (sh : Shell) (expr : Str) :
    (∃ d, extract_double expr = (some d, true) ∧ numberFallback sh expr = (d, sh))
    ∨ ((∀ d, extract_double expr ≠ (some d, true))
        ∧ numberFallback sh expr = (Dbl.dec "0".toList, sh.print errorLine)) := by
  simp only [numberFallback, errorLine]
  rcases hx : extract_double expr with ⟨_ | d, _ | _⟩
  · right; simp
  · right; simp
  · right; simp
  · left; exact ⟨d, rfl, rfl⟩

/-- When the expression is no variable and no entry of the literal table, and neither
call branch returns, `evaluateSimpleExpression` ends in the number fallback. -/
theorem eval_fallthrough (sh : Shell) (expr : Str)
    (hv : map_find sh.variables_ expr = none) (hl : expr ∉ literalKeys)
    (es : sqrtBranch expr = Except.ok none) (ep : powBranch expr = Except.ok none) :
    evaluateSimpleExpression sh expr = Except.ok (numberFallback sh expr) := by
  simp only [literalKeys, List.mem_cons, List.mem_singleton, List.not_mem_nil, or_false,
    not_or] at hl
  obtain ⟨h1, h2, h3, h4, h5, h6⟩ := hl
  simp only [evaluateSimpleExpression, hv, if_neg h1, if_neg h2, if_neg h3, if_neg h4, if_neg h5,
    if_neg h6, es, ep, bind, Except.bind, pure, Except.pure]

theorem sqrtBranch_not_taken (expr : Str) (h : "Math.sqrt(".toList.isPrefixOf expr = false) :
    sqrtBranch expr = Except.ok none := by
  have hz := find_str_zero_iff expr "Math.sqrt(".toList (by decide)
  simp only [sqrtBranch]
  rw [if_neg (fun e => by rw [hz.mp e] at h; cases h)]
  rfl

theorem powBranch_not_taken (expr : Str) (h : "Math.pow(".toList.isPrefixOf expr = false) :
    powBranch expr = Except.ok none := by
  have hz := find_str_zero_iff expr "Math.pow(".toList (by decide)
  simp only [powBranch]
  rw [if_neg (fun e => by rw [hz.mp e] at h; cases h)]
  rfl

/-- A known variable is returned as stored, whatever the expression looks like. -/
theorem eval_variable (sh : Shell) (expr : Str) (v : Dbl)
    (hv : map_find sh.variables_ expr = some v) :
    evaluateSimpleExpression sh expr = Except.ok (v, sh) := by
  simp only [evaluateSimpleExpression, hv, pure, Except.pure]

/-- The method `evaluateSimpleExpression` never throws; it returns some value and
leaves the shell as it was, or it returns `0` and prints the error line. -/
theorem eval_cases (sh : Shell) (expr : Str) (h : expr.length < npos) :
    (∃ d, evaluateSimpleExpression sh expr = Except.ok (d, sh))
    ∨ evaluateSimpleExpression sh expr
        = Except.ok (Dbl.dec "0".toList, sh.print errorLine) := by
  obtain ⟨a, hs⟩ : ∃ a, sqrtBranch expr = Except.ok a := ⟨_, sqrtBranch_eq expr h⟩
  obtain ⟨b, hp⟩ : ∃ b, powBranch expr = Except.ok b := ⟨_, powBranch_eq expr h⟩
  simp only [evaluateSimpleExpression, hs, hp, bind, Except.bind, pure, Except.pure]
  cases map_find sh.variables_ expr with
  | some v => exact Or.inl ⟨v, rfl⟩
  | none =>
    simp only []
    split_ifs
    any_goals exact Or.inl ⟨_, rfl⟩
    cases a with
    | some v => exact Or.inl ⟨v, rfl⟩
    | none =>
      cases b with
      | some v => exact Or.inl ⟨v, rfl⟩
      | none =>
        rcases numberFallback_cases sh expr with ⟨d, _, e⟩ | ⟨_, e⟩
        · exact Or.inl ⟨d, by simp only [e]⟩
        · exact Or.inr (by simp only [e])

/-! ## Reading a number -/

/-- The field and the rest that the loop returns make up its input. -/
theorem extract_float_loop_append (s : Str) :
    ∀ fm fd fs sg, (extract_float_loop s fm fd fs sg).1 ++ (extract_float_loop s fm fd fs sg).2
      = s := by
  induction s with
  | nil => intros; rfl
  | cons c cs ih =>
    intro fm fd fs sg
    simp only [extract_float_loop]
    split_ifs <;> simp [accept, ih]

theorem extract_float_append (s : Str) : (extract_float s).1 ++ (extract_float s).2 = s :=
  extract_float_loop_append s _ _ _ _

/-- A run of digits is accepted whole. -/
theorem loop_digits (ds : Str) (hd : ∀ c ∈ ds, isdigit c = true) (hne : ds ≠ []) :
    ∀ (r : Str) (fm fd fs sg : Bool),
      (extract_float_loop (ds ++ r) fm fd fs sg).2 = (extract_float_loop r true fd fs false).2 := by
  induction ds with
  | nil => exact absurd rfl hne
  | cons c cs ih =>
    intro r fm fd fs sg
    have hc : isdigit c = true := hd c (List.mem_cons_self _ _)
    simp only [List.cons_append, extract_float_loop, hc, if_true, accept]
    by_cases hcs : cs = []
    · subst hcs; rfl
    · exact ih (fun x hx => hd x (List.mem_cons_of_mem _ hx)) hcs r true fd fs false

theorem loop_all_digits (ds : Str) (hd : ∀ c ∈ ds, isdigit c = true) (fm fd fs sg : Bool) :
    (extract_float_loop ds fm fd fs sg).2 = [] := by
  by_cases hne : ds = []
  · subst hne; rfl
  · have := loop_digits ds hd hne [] fm fd fs sg
    rw [List.append_nil] at this
    rw [this]
    rfl

/-- The leading digits of a text are accepted; the flag `found_mantissa` records
whether there were any. -/
theorem loop_skip_digits (r : Str) (fm fd fs : Bool) :
    (extract_float_loop r fm fd fs false).2
      = (extract_float_loop (r.dropWhile isdigit) (fm || !(r.takeWhile isdigit).isEmpty) fd fs
          false).2 := by
  by_cases hne : r.takeWhile isdigit = []
  · have h1 := List.takeWhile_append_dropWhile isdigit r
    rw [hne, List.nil_append] at h1
    rw [h1, hne]
    simp
  · have h1 := loop_digits (r.takeWhile isdigit)
      (fun c hc => (List.mem_takeWhile_imp hc)) hne (r.dropWhile isdigit) fm fd fs false
    rw [List.takeWhile_append_dropWhile] at h1
    rw [h1]
    have : (r.takeWhile isdigit).isEmpty = false := by
      cases h : r.takeWhile isdigit with
      | nil => exact absurd h hne
      | cons _ _ => rfl
    simp [this]

theorem isdigit_exp_letter (c : Char) (h : c = 'e' ∨ c = 'E') :
    isdigit c = false ∧ c ≠ '.' := by
  rcases h with h | h <;> subst h <;> decide

/-- An exponent that reaches the end of the text is accepted whole. -/
theorem loop_exponent (x : Str) (e : Bool × Str) (he : takeExponent x = some e) (fd : Bool) :
    (extract_float_loop x true fd false false).2 = [] := by
  cases x with
  | nil => rfl
  | cons c r =>
    simp only [takeExponent] at he
    by_cases hc : c = 'e' ∨ c = 'E'
    · rw [if_pos hc] at he
      by_cases hd : (takeSign r).2 ≠ [] ∧ (takeSign r).2.all isdigit = true
      · obtain ⟨h1, h2⟩ := hd
        have hall : ∀ y ∈ (takeSign r).2, isdigit y = true := by
          simpa using h2
        obtain ⟨i1, i2⟩ := isdigit_exp_letter c hc
        simp only [extract_float_loop, i1, i2, hc, Bool.false_eq_true, if_false, false_and,
          true_and, if_true, accept]
        cases r with
        | nil => exact absurd rfl h1
        | cons s r2 =>
          by_cases hm : s = '-'
          · subst hm
            have e2 : (takeSign ('-' :: r2)).2 = r2 := by simp [takeSign]
            rw [e2] at hall
            have := loop_all_digits r2 hall true fd true false
            simpa [extract_float_loop, accept, isdigit] using this
          · by_cases hp : s = '+'
            · subst hp
              have e2 : (takeSign ('+' :: r2)).2 = r2 := by simp [takeSign]
              rw [e2] at hall
              have := loop_all_digits r2 hall true fd true false
              simpa [extract_float_loop, accept, isdigit] using this
            · have e2 : (takeSign (s :: r2)).2 = s :: r2 := by simp [takeSign, hm, hp]
              rw [e2] at hall
              exact loop_all_digits (s :: r2) hall true fd true true
      · rw [if_neg hd] at he
        cases he
    · rw [if_neg hc] at he
      cases he

/-- An unsigned numeral is accepted whole. -/
theorem loop_numeral (r : Str) (e : Bool × Str)
    (hm : ¬ (r.takeWhile isdigit = [] ∧ (takeFraction (r.dropWhile isdigit)).1 = []))
    (he : takeExponent (takeFraction (r.dropWhile isdigit)).2 = some e) :
    (extract_float_loop r false false false false).2 = [] := by
  rw [loop_skip_digits r false false false]
  cases h1 : r.dropWhile isdigit with
  | nil => rfl
  | cons a r2 =>
    rw [h1] at hm he
    by_cases ha : a = '.'
    · subst ha
      simp only [takeFraction, if_true] at hm he
      have hstep : (extract_float_loop ('.' :: r2)
            (false || !(r.takeWhile isdigit).isEmpty) false false false).2
          = (extract_float_loop r2 (false || !(r.takeWhile isdigit).isEmpty) true false false).2 := by
        simp [extract_float_loop, accept, isdigit]
      rw [hstep, loop_skip_digits r2 _ true false]
      have hflag : ((false || !(r.takeWhile isdigit).isEmpty)
          || !(r2.takeWhile isdigit).isEmpty) = true := by
        cases h2 : r.takeWhile isdigit with
        | cons _ _ => rfl
        | nil =>
          cases h3 : r2.takeWhile isdigit with
          | cons _ _ => rfl
          | nil => exact absurd ⟨h2, h3⟩ hm
      rw [hflag]
      exact loop_exponent _ e he true
    · simp only [takeFraction, ha, if_false] at hm he
      have hflag : (false || !(r.takeWhile isdigit).isEmpty) = true := by
        cases h2 : r.takeWhile isdigit with
        | cons _ _ => rfl
        | nil => exact absurd (by simp [h2]) hm
      rw [hflag]
      exact loop_exponent _ e he false

/-- Completeness of the field scan: a text that is entirely one numeral is read to
its end. -/
theorem extract_float_numeral (t : Str) (n : Numeral) (h : parseNumeral t = some n) :
    (extract_float t).2 = [] := by
  simp only [parseNumeral] at h
  split_ifs at h with hm
  obtain ⟨e, he, _⟩ := Option.map_eq_some'.mp h
  cases t with
  | nil => exact absurd ⟨rfl, rfl⟩ hm
  | cons c r =>
    by_cases h1 : c = '-'
    · subst h1
      have e2 : (takeSign ('-' :: r)).2 = r := by simp [takeSign]
      rw [e2] at hm he
      have := loop_numeral r e hm he
      simpa [extract_float, extract_float_loop, accept, isdigit] using this
    · by_cases h2 : c = '+'
      · subst h2
        have e2 : (takeSign ('+' :: r)).2 = r := by simp [takeSign]
        rw [e2] at hm he
        have := loop_numeral r e hm he
        simpa [extract_float, extract_float_loop, accept, isdigit] using this
      · have e2 : (takeSign (c :: r)).2 = c :: r := by simp [takeSign, h1, h2]
        rw [e2] at hm he
        have := loop_numeral (c :: r) e hm he
        simp only [extract_float, extract_float_loop, h1, h2, or_self, false_and, if_false] at this ⊢
        exact this

/-- What the stream accepts as a whole: the extraction succeeds and reaches the end of
the text exactly when the text, after its leading white space, is entirely one
numeral that does not overflow; the value is then the number that numeral denotes. -/
theorem extract_double_whole (s : Str) (d : Dbl) :
    extract_double s = (some d, true)
      ↔ acceptedNumber (s.dropWhile isspace) = true ∧ d = Dbl.dec (s.dropWhile isspace) := by
  simp only [extract_double, acceptedNumber]
  by_cases h0 : s.dropWhile isspace = []
  · rw [if_pos h0, h0]
    simp [parseNumeral, takeSign, takeFraction]
  · rw [if_neg h0]
    have hpart := extract_float_append (s.dropWhile isspace)
    by_cases hr : (extract_float (s.dropWhile isspace)).2 = []
    · rw [hr, List.append_nil] at hpart
      rw [hr, hpart]
      cases parseNumeral (s.dropWhile isspace) with
      | none => simp
      | some n =>
        by_cases ho : n.overflows = true
        · simp [ho]
        · simp only [ho, if_false, decide_True, Prod.mk.injEq, Option.some.injEq, and_true,
            Bool.not_eq_true', Bool.not_eq_true, true_and]
          simp only [Bool.false_eq_true, if_false, Prod.mk.injEq, Option.some.injEq, and_true]
          exact eq_comm
    · have hnone : parseNumeral (s.dropWhile isspace) = none := by
        cases hp : parseNumeral (s.dropWhile isspace) with
        | none => rfl
        | some n => exact absurd (extract_float_numeral _ n hp) hr
      rw [hnone]
      cases parseNumeral (extract_float (s.dropWhile isspace)).1 with
      | none => simp [hr]
      | some n =>
        by_cases ho : n.overflows = true
        · simp [ho]
        · simp [ho, hr]

/-- The stream reads no number from a text that starts with the letter `M`. -/
theorem extract_double_M (r : Str) : extract_double ('M' :: r) = (none, false) := by
  have h1 : isspace 'M' = false := by decide
  have h2 : isdigit 'M' = false := by decide
  simp [extract_double, List.dropWhile_cons, h1, h2, extract_float, extract_float_loop,
    parseNumeral, takeSign, takeFraction]

theorem numberFallback_M (sh : Shell) (r : Str) :
    numberFallback sh ('M' :: r) = (Dbl.dec "0".toList, sh.print errorLine) := by
  simp only [numberFallback, extract_double_M, errorLine]

theorem sqrt_prefix_facts (expr : Str) (h : "Math.sqrt(".toList.isPrefixOf expr = true) :
    expr ∉ literalKeys ∧ "Math.pow(".toList.isPrefixOf expr = false
      ∧ ∃ r, expr = 'M' :: r := by
  rw [ List.isPrefixOf_iff_prefix] at h
  obtain ⟨t, rfl⟩ := h
  refine ⟨?_, ?_, ⟨_, rfl⟩⟩
  · simp [literalKeys]
  · simp [List.isPrefixOf]

theorem pow_prefix_facts (expr : Str) (h : "Math.pow(".toList.isPrefixOf expr = true) :
    expr ∉ literalKeys ∧ "Math.sqrt(".toList.isPrefixOf expr = false
      ∧ ∃ r, expr = 'M' :: r := by
  rw [ List.isPrefixOf_iff_prefix] at h
  obtain ⟨t, rfl⟩ := h
  refine ⟨?_, ?_, ⟨_, rfl⟩⟩
  · simp [literalKeys]
  · simp [List.isPrefixOf]

/-! ## Assignment and dispatch -/

/-- What `handleAssignment` does on a line with an `=`: it evaluates the right-hand
side and stores the value under the name on the left. It throws nothing of its own. -/
theorem handleAssignment_eq (sh : Shell) (expr : Str) (h : expr.length < npos)
    (he : '=' ∈ expr) :
    handleAssignment sh expr
      = evaluateSimpleExpression sh (valueText expr) >>= fun r =>
          pure ({ r.2 with variables_ := map_set r.2.variables_ (targetName expr) r.1 }.print
            [Tok.text (targetName expr), Tok.text " = ".toList, Tok.dbl r.1, Tok.endl]) := by
  have hc : find_char expr '=' ≠ npos := fun e => (find_char_eq_npos_iff _ _ h).mp e he
  have hl1 : (expr.takeWhile (fun x => x != '=')).length < npos := by
    have := length_takeWhile_add (fun x => x != '=') expr
    omega
  have hl2 : (expr.dropWhile (fun x => x != '=')).tail.length < npos := by
    have := length_takeWhile_add (fun x => x != '=') expr
    simp only [List.length_tail]
    omega
  simp only [handleAssignment, if_neg hc, substr_upto _ _ h, substr_after _ _ h hc, bind,
    Except.bind, trim_ws_eq _ hl1, trim_ws_eq _ hl2, targetName, valueText]

theorem print_nil (sh : Shell) : sh.print [] = sh := by
  simp [Shell.print]

theorem promptNumbers_append (a b : List Tok) :
    promptNumbers (a ++ b) = promptNumbers a ++ promptNumbers b := by
  simp [promptNumbers]

theorem promptNumbers_textLine (t : String) : promptNumbers (textLine t) = [] := by
  simp [promptNumbers, textLine]

theorem promptNumbers_varLines (m : VarMap) : promptNumbers (m.map varLine).flatten = [] := by
  induction m with
  | nil => rfl
  | cons p m ih =>
    simp only [List.map_cons, List.flatten_cons, promptNumbers_append, ih, List.append_nil]
    simp [promptNumbers, varLine]

theorem eval_effect (sh : Shell) (expr : Str) (h : expr.length < npos) :
    ∃ d out, evaluateSimpleExpression sh expr = Except.ok (d, sh.print out)
      ∧ (out = [] ∨ out = errorLine) := by
  rcases eval_cases sh expr h with ⟨d, e⟩ | e
  · exact ⟨d, [], by rw [e, print_nil], Or.inl rfl⟩
  · exact ⟨_, errorLine, e, Or.inr rfl⟩

theorem not_mem_of_eq_npos (expr : Str) (c : Char) (h : expr.length < npos) :
    find_char expr c ≠ npos ↔ c ∈ expr := by
  rw [Ne, find_char_eq_npos_iff _ _ h, not_not]

/-- The dispatch of `evaluateExpression` on an assignment. -/
theorem evaluateExpression_assign (sh : Shell) (expr : Str) (h : expr.length < npos)
    (ha : isAssignment expr) :
    evaluateExpression sh expr
      = evaluateSimpleExpression (sh.print (echoLine expr)) (valueText expr) >>= fun r =>
          pure ({ r.2 with variables_ := map_set r.2.variables_ (targetName expr) r.1 }.print
            [Tok.text (targetName expr), Tok.text " = ".toList, Tok.dbl r.1, Tok.endl]) := by
  have c : find_char expr '=' ≠ npos ∧ find_str expr "==".toList = npos :=
    ⟨(not_mem_of_eq_npos _ _ h).mpr ha.1, (find_str_eq_npos_iff _ _ h).mpr ha.2⟩
  simp only [evaluateExpression]
  rw [if_pos c, handleAssignment_eq _ _ h ha.1]
  rfl

/-- The dispatch of `evaluateExpression` on anything else. -/
theorem evaluateExpression_eval (sh : Shell) (expr : Str) (h : expr.length < npos)
    (ha : ¬ isAssignment expr) :
    evaluateExpression sh expr
      = evaluateSimpleExpression (sh.print (echoLine expr)) expr >>= fun r =>
          pure (r.2.print [Tok.dbl r.1, Tok.endl]) := by
  have c : ¬ (find_char expr '=' ≠ npos ∧ find_str expr "==".toList = npos) := by
    rintro ⟨c1, c2⟩
    exact ha ⟨(not_mem_of_eq_npos _ _ h).mp c1, (find_str_eq_npos_iff _ _ h).mp c2⟩
  simp only [evaluateExpression]
  rw [if_neg c]
  rfl

/-- What `evaluateExpression` does to the shell: it never throws, it only appends to
the output, it prints no `int`, it leaves `running_` alone, and it changes the
variables exactly on an assignment, by one `map_set` at the target name. -/
theorem evaluateExpression_effect (sh : Shell) (expr : Str) (h : expr.length < npos) :
    ∃ sh1 out, evaluateExpression sh expr = Except.ok sh1
      ∧ sh1.cout = sh.cout ++ out ∧ promptNumbers out = []
      ∧ sh1.running_ = sh.running_
      ∧ (¬ isAssignment expr → sh1.variables_ = sh.variables_)
      ∧ (isAssignment expr →
          ∃ d, sh1.variables_ = map_set sh.variables_ (targetName expr) d) := by
  have pe : promptNumbers errorLine = [] := promptNumbers_textLine _
  by_cases ha : isAssignment expr
  · have hl : (valueText expr).length < npos := by
      have h1 := length_trim_le (expr.dropWhile (fun x => x != '=')).tail
      have h2 := length_takeWhile_add (fun x => x != '=') expr
      simp only [List.length_tail] at h1
      simp only [valueText]
      omega
    obtain ⟨d, o, e, ho⟩ := eval_effect (sh.print (echoLine expr)) (valueText expr) hl
    have e2 := evaluateExpression_assign sh expr h ha
    rw [e] at e2
    simp only [bind, Except.bind, pure, Except.pure] at e2
    refine ⟨_, echoLine expr ++ o
      ++ [Tok.text (targetName expr), Tok.text " = ".toList, Tok.dbl d, Tok.endl], e2, ?_, ?_, ?_,
      ?_, ?_⟩
    · simp [Shell.print]
    · rcases ho with ho | ho
      · subst ho; simp [promptNumbers, echoLine]
      · subst ho; simp [promptNumbers_append, pe]; simp [promptNumbers, echoLine]
    · rfl
    · intro c; exact absurd ha c
    · intro _; exact ⟨d, rfl⟩
  · obtain ⟨d, o, e, ho⟩ := eval_effect (sh.print (echoLine expr)) expr h
    have e2 := evaluateExpression_eval sh expr h ha
    rw [e] at e2
    simp only [bind, Except.bind, pure, Except.pure] at e2
    refine ⟨_, echoLine expr ++ o ++ [Tok.dbl d, Tok.endl], e2, ?_, ?_, ?_, ?_, ?_⟩
    · simp [Shell.print]
    · rcases ho with ho | ho
      · subst ho; simp [promptNumbers, echoLine]
      · subst ho; simp [promptNumbers_append, pe]; simp [promptNumbers, echoLine]
    · rfl
    · intro _; rfl
    · intro c; exact absurd c ha

theorem promptNumbers_showHelp (sh : Shell) :
    ∃ out, (showHelp sh).cout = sh.cout ++ out ∧ promptNumbers out = [] :=
  ⟨_, rfl, by decide⟩

theorem promptNumbers_showVariables (sh : Shell) :
    ∃ out, (showVariables sh).cout = sh.cout ++ out ∧ promptNumbers out = [] := by
  simp only [showVariables]
  split
  · exact ⟨_, rfl, promptNumbers_textLine _⟩
  · exact ⟨_, rfl, by rw [promptNumbers_append, promptNumbers_textLine, promptNumbers_varLines]; rfl⟩

theorem showVariables_frame (sh : Shell) :
    (showVariables sh).variables_ = sh.variables_ ∧ (showVariables sh).running_ = sh.running_ := by
  simp only [showVariables]
  split <;> exact ⟨rfl, rfl⟩

theorem control_not_assignment (input : Str) (h : input ∈ controlWords) :
    ¬ isAssignment input := by
  intro ha
  have h1 := ha.1
  simp only [controlWords, List.mem_cons, List.mem_singleton, List.not_mem_nil, or_false] at h
  rcases h with h | h | h | h | h | h | h <;> subst h <;> revert h1 <;> decide

/-- What `processCommand` does to the shell: it never throws, it only appends to the
output, it prints no `int`, it clears `running_` exactly on `exit` and `quit`, and it
changes the variables exactly on an assignment, by one `map_set` at the target name. -/
theorem processCommand_effect (sh : Shell) (input : Str) (h : input.length < npos) :
    ∃ sh1 out, processCommand sh input = Except.ok sh1
      ∧ sh1.cout = sh.cout ++ out ∧ promptNumbers out = []
      ∧ sh1.running_ = (if isExit input then false else sh.running_)
      ∧ (¬ isAssignment input → sh1.variables_ = sh.variables_)
      ∧ (isAssignment input →
          ∃ d, sh1.variables_ = map_set sh.variables_ (targetName input) d) := by
  by_cases hw : input ∈ controlWords
  · have hna := control_not_assignment input hw
    simp only [controlWords, List.mem_cons, List.mem_singleton, List.not_mem_nil, or_false] at hw
    rcases hw with hw | hw | hw | hw | hw | hw | hw <;> subst hw
    · exact ⟨_, [], rfl, by simp, rfl, rfl, fun _ => rfl, fun c => absurd c hna⟩
    · exact ⟨_, [], rfl, by simp, rfl, rfl, fun _ => rfl, fun c => absurd c hna⟩
    · obtain ⟨out, e1, e2⟩ := promptNumbers_showHelp sh
      exact ⟨_, out, rfl, e1, e2, rfl, fun _ => rfl, fun c => absurd c hna⟩
    · exact ⟨_, _, rfl, rfl, by decide, rfl, fun _ => rfl, fun c => absurd c hna⟩
    · obtain ⟨out, e1, e2⟩ := promptNumbers_showVariables sh
      exact ⟨_, out, rfl, e1, e2, (showVariables_frame sh).2, fun _ => (showVariables_frame sh).1,
        fun c => absurd c hna⟩
    · exact ⟨_, _, rfl, rfl, by decide, rfl, fun _ => rfl, fun c => absurd c hna⟩
    · exact ⟨_, _, rfl, rfl, by decide, rfl, fun _ => rfl, fun c => absurd c hna⟩
  · simp only [controlWords, List.mem_cons, List.mem_singleton, List.not_mem_nil, or_false,
      not_or] at hw
    obtain ⟨w1, w2, w3, w4, w5, w6, w7⟩ := hw
    have hx : ¬ isExit input := fun c => c.elim w1 w2
    have e : processCommand sh input = evaluateExpression sh input := by
      simp only [processCommand, w1, w2, w3, w4, w5, w6, w7, or_self, if_false]
    obtain ⟨sh1, out, e1, e2, e3, e4, e5, e6⟩ := evaluateExpression_effect sh input h
    exact ⟨sh1, out, e ▸ e1, e2, e3, by rw [if_neg hx]; exact e4, e5, e6⟩

/-! ## The loop -/

/-- The body of the loop: the line is trimmed; an empty line is skipped, any other is
dispatched and counted. -/
theorem loopBody_eq (sh : Shell) (n : Int) (line : Str) (h : line.length < npos) :
    loopBody sh n line
      = if trim line = [] then Except.ok (sh, n)
        else processCommand sh (trim line) >>= fun sh1 => pure (sh1, n + 1) := by
  simp only [loopBody, trim_ws_eq line h, bind, Except.bind, List.isEmpty_iff]
  rfl

/-- What one pass through the loop body does to the shell and to `lineNumber`. -/
theorem loopBody_effect (sh : Shell) (n : Int) (line : Str) (h : line.length < npos) :
    ∃ sh1 out, loopBody sh n line = Except.ok (sh1, if trim line = [] then n else n + 1)
      ∧ sh1.cout = sh.cout ++ out ∧ promptNumbers out = []
      ∧ sh1.running_ = (if isExit (trim line) then false else sh.running_)
      ∧ (¬ isAssignment (trim line) → sh1.variables_ = sh.variables_)
      ∧ (isAssignment (trim line) →
          ∃ d, sh1.variables_ = map_set sh.variables_ (targetName (trim line)) d) := by
  rw [loopBody_eq sh n line h]
  by_cases he : trim line = []
  · rw [if_pos he, if_pos he]
    refine ⟨sh, [], rfl, by simp, rfl, ?_, fun _ => rfl, ?_⟩
    · rw [he, if_neg (by decide)]
    · rw [he]; intro c; exact absurd c (by decide)
  · rw [if_neg he, if_neg he]
    have hl : (trim line).length < npos := Nat.lt_of_le_of_lt (length_trim_le line) h
    obtain ⟨sh1, out, e1, e2, e3, e4, e5, e6⟩ := processCommand_effect sh (trim line) hl
    exact ⟨sh1, out, by rw [e1]; rfl, e2, e3, e4, e5, e6⟩

theorem runLoop_nil (sh : Shell) (n : Int) (h : sh.running_ = true) :
    runLoop sh n [] = Except.ok (sh.print (prompt n), n) := by
  simp only [runLoop, h, if_true]
  rfl

theorem runLoop_cons (sh : Shell) (n : Int) (line : Str) (rest : List Str)
    (h : sh.running_ = true) :
    runLoop sh n (line :: rest)
      = loopBody (sh.print (prompt n)) n line >>= fun r => runLoop r.1 r.2 rest := by
  simp only [runLoop, h, if_true]

theorem runLoop_stopped (sh : Shell) (n : Int) (input : List Str) (h : sh.running_ = false) :
    runLoop sh n input = Except.ok (sh, n) := by
  cases input <;> simp [runLoop, h] <;> rfl

/-- While no line is `exit` or `quit`, the loop reads every line, keeps running and
prints exactly the prompts of `promptSeq`. -/
theorem runLoop_prompts (input : List Str) :
    ∀ (sh : Shell) (n : Int), sh.running_ = true →
      (∀ l ∈ input, l.length < npos ∧ ¬ isExit (trim l)) →
      ∃ sh1 n1 out, runLoop sh n input = Except.ok (sh1, n1)
        ∧ sh1.cout = sh.cout ++ out ∧ promptNumbers out = promptSeq n input := by
  induction input with
  | nil =>
    intro sh n hr _
    exact ⟨_, _, prompt n, runLoop_nil sh n hr, rfl, rfl⟩
  | cons line rest ih =>
    intro sh n hr hall
    obtain ⟨hb, hx⟩ := hall line (List.mem_cons_self _ _)
    obtain ⟨sh1, out1, e1, e2, e3, e4, _, _⟩ := loopBody_effect (sh.print (prompt n)) n line hb
    have hr1 : sh1.running_ = true := by
      rw [e4, if_neg hx]; exact hr
    obtain ⟨sh2, n2, out2, f1, f2, f3⟩ :=
      ih sh1 (if trim line = [] then n else n + 1) hr1
        (fun l hl => hall l (List.mem_cons_of_mem _ hl))
    refine ⟨sh2, n2, prompt n ++ out1 ++ out2, ?_, ?_, ?_⟩
    · rw [runLoop_cons sh n line rest hr, e1]
      exact f1
    · rw [f2, e2]
      simp [Shell.print]
    · rw [promptNumbers_append, promptNumbers_append, e3, f3]
      rfl

/-- An invariant of the variable table that every assignment among the lines keeps is
kept by the loop, which never throws. -/
theorem runLoop_invariant (I : VarMap → Prop) (input : List Str)
    (hb : ∀ l ∈ input, l.length < npos)
    (hI : ∀ l ∈ input, ∀ m d, I m → isAssignment (trim l) →
      I (map_set m (targetName (trim l)) d)) :
    ∀ (sh : Shell) (n : Int), I sh.variables_ →
      ∃ sh1 n1, runLoop sh n input = Except.ok (sh1, n1) ∧ I sh1.variables_ := by
  induction input with
  | nil =>
    intro sh n hi
    by_cases hr : sh.running_ = true
    · exact ⟨_, _, runLoop_nil sh n hr, hi⟩
    · exact ⟨_, _, runLoop_stopped sh n [] (by simpa using hr), hi⟩
  | cons line rest ih =>
    intro sh n hi
    by_cases hr : sh.running_ = true
    · obtain ⟨sh1, out1, e1, _, _, _, e5, e6⟩ :=
        loopBody_effect (sh.print (prompt n)) n line (hb line (List.mem_cons_self _ _))
      have hi1 : I sh1.variables_ := by
        by_cases ha : isAssignment (trim line)
        · obtain ⟨d, e⟩ := e6 ha
          rw [e]
          exact hI line (List.mem_cons_self _ _) _ d hi ha
        · rw [e5 ha]
          exact hi
      obtain ⟨sh2, n2, f1, f2⟩ :=
        ih (fun l hl => hb l (List.mem_cons_of_mem _ hl))
          (fun l hl => hI l (List.mem_cons_of_mem _ hl)) sh1 _ hi1
      exact ⟨sh2, n2, by rw [runLoop_cons sh n line rest hr, e1]; exact f1, f2⟩
    · exact ⟨_, _, runLoop_stopped sh n _ (by simpa using hr), hi⟩

theorem promptSeq_length (input : List Str) :
    ∀ n, (promptSeq n input).length = input.length + 1 := by
  induction input with
  | nil => intro n; rfl
  | cons l ls ih => intro n; simp only [promptSeq, List.length_cons, ih]

theorem countProcessed_cons (l : Str) (ls : List Str) :
    countProcessed (l :: ls) = (if trim l = [] then 0 else 1) + countProcessed ls := by
  by_cases h : trim l = []
  · simp [countProcessed, List.filter_cons, h]
  · simp [countProcessed, List.filter_cons, h]
    omega

theorem promptSeq_getElem (input : List Str) :
    ∀ (n : Int) (k : Nat), k ≤ input.length →
      (promptSeq n input)[k]? = some (n + (countProcessed (input.take k) : Int)) := by
  induction input with
  | nil =>
    intro n k hk
    have : k = 0 := by simpa using hk
    subst this
    simp [promptSeq, countProcessed]
  | cons l ls ih =>
    intro n k hk
    cases k with
    | zero => simp [promptSeq, countProcessed]
    | succ k =>
      have hk1 : k ≤ ls.length := by simpa using hk
      simp only [promptSeq, List.getElem?_cons_succ, List.take_succ_cons, countProcessed_cons]
      rw [ih _ k hk1]
      by_cases h : trim l = []
      · simp [h]
      · simp only [h, if_false]
        congr 1
        push_cast
        ring

/-- The whole program, while no line is `exit` or `quit`: it never throws, its prompts
are those of `promptSeq`, and the farewell line ends the output. -/
theorem main_prompts (input : List Str)
    (hb : ∀ l ∈ input, l.length < npos ∧ ¬ isExit (trim l)) :
    ∃ sh pre, main input = Except.ok sh ∧ sh.cout = pre ++ textLine "Goodbye!"
      ∧ promptNumbers pre = promptSeq 1 input := by
  obtain ⟨sh1, n1, out, e1, e2, e3⟩ := runLoop_prompts input
    ((newShell []).print bannerText) 1 rfl hb
  refine ⟨sh1.print (textLine "Goodbye!"), sh1.cout, ?_, rfl, ?_⟩
  · simp only [main, run, e1, bind, Except.bind]
    rfl
  · rw [e2, promptNumbers_append, e3]
    rfl

/-! ## The variable table -/

theorem map_find_set_self (m : VarMap) (k : Str) (v : Dbl) :
    map_find (map_set m k v) k = some v := by
  induction m with
  | nil => simp [map_set, map_find, List.lookup]
  | cons p m ih =>
    obtain ⟨k1, v1⟩ := p
    simp only [map_set]
    split_ifs with h1 h2
    · simp [map_find, List.lookup]
    · simp [map_find, List.lookup]
    · have hne : (k == k1) = false := by simpa using h1
      simp only [map_find, List.lookup, hne]
      exact ih

theorem map_find_set_ne (m : VarMap) (k k2 : Str) (v : Dbl) (h : k2 ≠ k) :
    map_find (map_set m k v) k2 = map_find m k2 := by
  induction m with
  | nil =>
    have hne : (k2 == k) = false := by simpa using h
    simp [map_set, map_find, List.lookup, hne]
  | cons p m ih =>
    obtain ⟨k1, v1⟩ := p
    have hne : (k2 == k) = false := by simpa using h
    simp only [map_set]
    split_ifs with h1 h2
    · subst h1
      simp [map_find, List.lookup, hne]
    · simp [map_find, List.lookup, hne]
    · simp only [map_find, List.lookup] at ih ⊢
      cases (k2 == k1) with
      | true => rfl
      | false => exact ih

theorem eval_math_constants (sh : Shell)
    (h1 : map_find sh.variables_ "Math.PI".toList = none)
    (h2 : map_find sh.variables_ "Math.E".toList = none) :
    evaluateSimpleExpression sh "Math.PI".toList
        = Except.ok (Dbl.dec "3.14159265359".toList, sh)
    ∧ evaluateSimpleExpression sh "Math.E".toList
        = Except.ok (Dbl.dec "2.71828182846".toList, sh) := by
  constructor
  · simp only [evaluateSimpleExpression, h1]
    rfl
  · simp only [evaluateSimpleExpression, h2]
    rfl

theorem map_set_ne_nil (m : VarMap) (k : Str) (v : Dbl) : map_set m k v ≠ [] := by
  cases m with
  | nil => simp [map_set]
  | cons p m =>
    obtain ⟨k1, v1⟩ := p
    simp only [map_set]
    split_ifs <;> simp

theorem map_set_keys (m : VarMap) (k : Str) (v : Dbl) :
    ∀ x ∈ (map_set m k v).map Prod.fst, x = k ∨ x ∈ m.map Prod.fst := by
  induction m with
  | nil => intro x hx; simpa [map_set] using hx
  | cons p m ih =>
    obtain ⟨k1, v1⟩ := p
    intro x hx
    simp only [map_set] at hx
    split_ifs at hx with h1 h2
    · simp only [List.map_cons, List.mem_cons] at hx ⊢
      rcases hx with e | e
      · exact Or.inl e
      · exact Or.inr (Or.inr e)
    · simp only [List.map_cons, List.mem_cons] at hx ⊢
      rcases hx with e | e | e
      · exact Or.inl e
      · exact Or.inr (Or.inl e)
      · exact Or.inr (Or.inr e)
    · simp only [List.map_cons, List.mem_cons] at hx ⊢
      rcases hx with e | e
      · exact Or.inr (Or.inl e)
      · rcases ih x e with e2 | e2
        · exact Or.inl e2
        · exact Or.inr (Or.inr e2)

/-- The statement `m[k] = v` keeps the names in strictly ascending order. -/
theorem map_set_ascending (m : VarMap) (k : Str) (v : Dbl) (h : keysAscending m) :
    keysAscending (map_set m k v) := by
  induction m with
  | nil => simp [map_set, keysAscending]
  | cons p m ih =>
    obtain ⟨k1, v1⟩ := p
    simp only [keysAscending, List.map_cons, List.pairwise_cons] at h
    obtain ⟨hhead, htail⟩ := h
    simp only [map_set]
    split_ifs with h1 h2
    · subst h1
      simp only [keysAscending, List.map_cons, List.pairwise_cons]
      exact ⟨hhead, htail⟩
    · simp only [keysAscending, List.map_cons, List.pairwise_cons, List.mem_cons]
      refine ⟨?_, hhead, htail⟩
      intro x hx
      rcases hx with e | e
      · rw [e]; exact h2
      · exact lt_trans h2 (hhead x e)
    · have hlt : k1 < k := by
        rcases lt_trichotomy k k1 with c | c | c
        · exact absurd c h2
        · exact absurd c h1
        · exact c
      simp only [keysAscending, List.map_cons, List.pairwise_cons]
      refine ⟨?_, ih htail⟩
      intro x hx
      rcases map_set_keys m k v x hx with e | e
      · rw [e]; exact hlt
      · exact hhead x e

theorem countProcessed_take_le (input : List Str) (k : Nat) :
    countProcessed (input.take k) ≤ countProcessed input :=
  ((List.take_sublist k input).filter _).length_le

/-! ## Trimming -/

theorem trim_eq_rtrim (s : Str) : trim s = rtrim (s.dropWhile isBlank) :=
  rfl

theorem rtrim_nil : rtrim [] = [] :=
  rfl

theorem rtrim_cons (c : Char) (cs : Str) :
    rtrim (c :: cs) = if rtrim cs = [] ∧ isBlank c = true then [] else c :: rtrim cs := by
  simp only [rtrim, List.reverse_cons, List.dropWhile_append]
  by_cases h : cs.reverse.dropWhile isBlank = []
  · by_cases hc : isBlank c = true
    · simp [h, hc]
    · simp [h, hc]
  · have h2 : (cs.reverse.dropWhile isBlank).isEmpty = false := by
      cases h3 : cs.reverse.dropWhile isBlank with
      | nil => exact absurd h3 h
      | cons _ _ => rfl
    simp [h, h2]

theorem rtrim_nonblank_append (v b : Str) (hv : ∀ c ∈ v, isBlank c = false) :
    rtrim (v ++ b) = v ++ rtrim b := by
  induction v with
  | nil => rfl
  | cons c cs ih =>
    have hc : isBlank c = false := hv c (List.mem_cons_self _ _)
    rw [List.cons_append, rtrim_cons, ih (fun x hx => hv x (List.mem_cons_of_mem _ hx))]
    simp [hc]

theorem rtrim_rtrim (x : Str) : rtrim (rtrim x) = rtrim x := by
  induction x with
  | nil => rfl
  | cons c cs ih =>
    rw [rtrim_cons]
    split_ifs with h
    · rfl
    · rw [rtrim_cons, ih, if_neg h]

theorem dropWhile_rtrim (x : Str) :
    (rtrim x).dropWhile isBlank = rtrim (x.dropWhile isBlank) := by
  induction x with
  | nil => rfl
  | cons c cs ih =>
    by_cases hc : isBlank c = true
    · rw [rtrim_cons, List.dropWhile_cons_of_pos hc]
      by_cases h : rtrim cs = []
      · rw [if_pos ⟨h, hc⟩, ← ih, h]
      · rw [if_neg (fun e => h e.1), List.dropWhile_cons_of_pos hc, ih]
    · rw [List.dropWhile_cons_of_neg hc, rtrim_cons, if_neg (fun e => hc e.2),
        List.dropWhile_cons_of_neg hc]

theorem trim_rtrim (x : Str) : trim (rtrim x) = trim x := by
  rw [trim_eq_rtrim, trim_eq_rtrim, dropWhile_rtrim, rtrim_rtrim]

theorem trim_blank_cons (c : Char) (x : Str) (hc : isBlank c = true) :
    trim (c :: x) = trim x := by
  rw [trim_eq_rtrim, trim_eq_rtrim, List.dropWhile_cons_of_pos hc]

theorem dropWhile_nonblank_head (v b : Str) (hne : v ≠ [])
    (hv : ∀ c ∈ v, isBlank c = false) : (v ++ b).dropWhile isBlank = v ++ b := by
  cases v with
  | nil => exact absurd rfl hne
  | cons c cs =>
    have hc : ¬ isBlank c = true := by
      rw [hv c (List.mem_cons_self _ _)]; exact Bool.false_ne_true
    rw [List.cons_append, List.dropWhile_cons_of_neg hc]

theorem isIdentPart_facts (c : Char) (h : isIdentPart c = true) :
    isBlank c = false ∧ c ≠ '=' := by
  refine ⟨?_, ?_⟩
  · by_contra hb
    have hb2 : c = ' ' ∨ c = '\t' := by
      by_cases e : c = ' '
      · exact Or.inl e
      · right
        by_contra e2
        exact hb (by simp [isBlank, e, e2])
    rcases hb2 with e | e <;> subst e <;> revert h <;> decide
  · intro e
    subst e
    revert h
    decide

theorem isIdentStart_part (c : Char) (h : isIdentStart c = true) : isIdentPart c = true := by
  simp only [isIdentStart, isIdentPart, Char.isAlphanum, Bool.or_eq_true] at h ⊢
  rcases h with (h | h) | h
  · exact Or.inl (Or.inl (Or.inl h))
  · exact Or.inl (Or.inr h)
  · exact Or.inr h

theorem identifier_facts (v : Str) (h : isIdentifier v = true) :
    v ≠ [] ∧ (∀ c ∈ v, isBlank c = false) ∧ '=' ∉ v := by
  cases v with
  | nil => cases h
  | cons a as =>
    simp only [isIdentifier, Bool.and_eq_true, List.all_eq_true] at h
    have hall : ∀ c ∈ a :: as, isIdentPart c = true := by
      intro c hc
      rcases List.mem_cons.mp hc with e | e
      · rw [e]; exact isIdentStart_part a h.1
      · exact h.2 c e
    refine ⟨List.cons_ne_nil _ _, fun c hc => (isIdentPart_facts c (hall c hc)).1, ?_⟩
    intro hm
    exact (isIdentPart_facts _ (hall _ hm)).2 rfl

/-- The trimmed form of the line `v = e` for a name `v` without blanks. -/
theorem trim_assignment_line (v e : Str) (hne : v ≠ [])
    (hv : ∀ c ∈ v, isBlank c = false) :
    trim (v ++ " = ".toList ++ e) = v ++ ' ' :: '=' :: rtrim (' ' :: e) := by
  have e1 : v ++ " = ".toList ++ e = v ++ (' ' :: '=' :: ' ' :: e) := by simp
  rw [e1, trim_eq_rtrim, dropWhile_nonblank_head v _ hne hv, rtrim_nonblank_append v _ hv,
    rtrim_cons ' ', rtrim_cons '=']
  simp [isBlank]

theorem targetName_assignment_line (v e : Str) (hne : v ≠ [])
    (hv : ∀ c ∈ v, isBlank c = false) (heq : '=' ∉ v) :
    targetName (trim (v ++ " = ".toList ++ e)) = v := by
  have hp : ∀ a ∈ v, (fun x => x != '=') a = true := by
    intro a ha
    have : a ≠ '=' := fun c => heq (c ▸ ha)
    simpa using this
  rw [trim_assignment_line v e hne hv, targetName, List.takeWhile_append_of_pos hp]
  have e1 : List.takeWhile (fun x => x != '=') (' ' :: '=' :: rtrim (' ' :: e)) = [' '] := by
    simp [List.takeWhile_cons]
  rw [e1, trim_eq_rtrim, dropWhile_nonblank_head v _ hne hv, rtrim_nonblank_append v _ hv]
  simp [rtrim_cons, rtrim_nil, isBlank]

theorem valueText_assignment_line (v e : Str) (hne : v ≠ [])
    (hv : ∀ c ∈ v, isBlank c = false) (heq : '=' ∉ v) :
    valueText (trim (v ++ " = ".toList ++ e)) = trim e := by
  have hp : ∀ a ∈ v, (fun x => x != '=') a = true := by
    intro a ha
    have : a ≠ '=' := fun c => heq (c ▸ ha)
    simpa using this
  rw [trim_assignment_line v e hne hv, valueText, List.dropWhile_append_of_pos hp]
  have e1 : List.dropWhile (fun x => x != '=') (' ' :: '=' :: rtrim (' ' :: e))
      = '=' :: rtrim (' ' :: e) := by
    simp [List.dropWhile_cons]
  rw [e1, List.tail_cons, trim_rtrim, trim_blank_cons ' ' e (by decide)]

theorem trim_nonblank (v : Str) (hv : ∀ c ∈ v, isBlank c = false) : trim v = v := by
  by_cases hne : v = []
  · subst hne; rfl
  · have h1 := dropWhile_nonblank_head v [] hne hv
    have h2 := rtrim_nonblank_append v [] hv
    rw [List.append_nil] at h1 h2
    rw [trim_eq_rtrim, h1, h2, rtrim_nil, List.append_nil]

theorem processCommand_other (sh : Shell) (input : Str) (hw : input ∉ controlWords) :
    processCommand sh input = evaluateExpression sh input := by
  simp only [controlWords, List.mem_cons, List.mem_singleton, List.not_mem_nil, or_false,
    not_or] at hw
  obtain ⟨w1, w2, w3, w4, w5, w6, w7⟩ := hw
  simp only [processCommand, w1, w2, w3, w4, w5, w6, w7, or_self, if_false]

/-- The value that `evaluateSimpleExpression` returns depends on the variables only,
not on what has been printed or on `running_`. -/
theorem eval_value_indep (sh sh2 : Shell) (expr : Str) (h : sh.variables_ = sh2.variables_) :
    (evaluateSimpleExpression sh expr).map (fun r => r.1)
      = (evaluateSimpleExpression sh2 expr).map (fun r => r.1) := by
  have hf : (numberFallback sh expr).1 = (numberFallback sh2 expr).1 := by
    rcases numberFallback_cases sh expr with ⟨d, e0, e1⟩ | ⟨e0, e1⟩
    · rcases numberFallback_cases sh2 expr with ⟨d2, f0, f1⟩ | ⟨f0, _⟩
      · rw [e1, f1]
        rw [e0] at f0
        cases f0
        rfl
      · exact absurd e0 (f0 d)
    · rcases numberFallback_cases sh2 expr with ⟨d2, f0, _⟩ | ⟨_, f1⟩
      · exact absurd f0 (e0 d2)
      · rw [e1, f1]
  simp only [evaluateSimpleExpression, ← h]
  cases map_find sh.variables_ expr with
  | some v => rfl
  | none =>
    simp only []
    split_ifs
    any_goals rfl
    cases sqrtBranch expr with
    | error _ => rfl
    | ok r1 =>
      cases r1 with
      | some _ => rfl
      | none =>
        cases powBranch expr with
        | error _ => rfl
        | ok r2 =>
          cases r2 with
          | some _ => rfl
          | none =>
            simp only [bind, Except.bind, pure, Except.pure, Except.map]
            rw [hf]

/-! ## The claims -/

/-- C1, as the code has it. Let `v` be an identifier that is not one of the seven
control words, and `e` any right-hand side such that the line `v = e` is taken for an
assignment (its trimmed form has no `==`). In any state, processing the line `v = e`
stores under `v` the value that `evaluateSimpleExpression` yields for the trimmed `e`;
processing the line `v` next evaluates `v` and prints exactly that value, leaving the
store as it is. Neither line throws, and each advances `lineNumber`. -/
theorem assignment_round_trip (sh : Shell) (n : Int) (v e : Str)
    (hid : isIdentifier v = true) (hw : v ∉ controlWords)
    (hb : (v ++ " = ".toList ++ e).length < npos)
    (ha : ¬ ("==".toList <:+: trim (v ++ " = ".toList ++ e))) :
    ∃ d sh0 sh1 sh2,
      evaluateSimpleExpression sh (trim e) = Except.ok (d, sh0)
      ∧ loopBody sh n (v ++ " = ".toList ++ e) = Except.ok (sh1, n + 1)
      ∧ map_find sh1.variables_ v = some d
      ∧ loopBody sh1 (n + 1) v = Except.ok (sh2, n + 1 + 1)
      ∧ sh2.cout = sh1.cout ++ echoLine v ++ [Tok.dbl d, Tok.endl]
      ∧ sh2.variables_ = sh1.variables_ := by
  obtain ⟨hne, hv, heq⟩ := identifier_facts v hid
  have ht := trim_assignment_line v e hne hv
  have htn := targetName_assignment_line v e hne hv heq
  have hvt := valueText_assignment_line v e hne hv heq
  have hlt : (trim (v ++ " = ".toList ++ e)).length < npos :=
    Nat.lt_of_le_of_lt (length_trim_le _) hb
  have hle : (trim e).length < npos := by
    have h1 := length_trim_le e
    simp only [List.length_append] at hb
    omega
  have hlv : v.length < npos := by
    simp only [List.length_append] at hb
    omega
  have hmem : '=' ∈ trim (v ++ " = ".toList ++ e) := by
    rw [ht]; simp
  have hassign : isAssignment (trim (v ++ " = ".toList ++ e)) := ⟨hmem, ha⟩
  have hnw : trim (v ++ " = ".toList ++ e) ∉ controlWords :=
    fun c => control_not_assignment _ c hassign
  have hnil : trim (v ++ " = ".toList ++ e) ≠ [] := by
    rw [ht]; simp
  -- the value of the right-hand side
  obtain ⟨d, out, ev, _⟩ :=
    eval_effect (sh.print (echoLine (trim (v ++ " = ".toList ++ e)))) (trim e) hle
  obtain ⟨d0, out0, ev0, _⟩ := eval_effect sh (trim e) hle
  have hd : d0 = d := by
    have := eval_value_indep sh (sh.print (echoLine (trim (v ++ " = ".toList ++ e)))) (trim e) rfl
    rw [ev, ev0] at this
    simpa [Except.map] using this
  subst hd
  -- the first line
  have hfirst := loopBody_eq sh n (v ++ " = ".toList ++ e) hb
  rw [if_neg hnil, processCommand_other sh _ hnw, evaluateExpression_assign sh _ hlt hassign,
    hvt, htn, ev] at hfirst
  simp only [bind, Except.bind, pure, Except.pure] at hfirst
  -- the second line
  have htv : trim v = v := trim_nonblank v hv
  have hna : ¬ isAssignment v := fun c => heq c.1
  have hsecond := fun (s1 : Shell) => loopBody_eq s1 (n + 1) v hlv
  simp only [htv, if_neg hne, processCommand_other _ v hw] at hsecond
  have key : ∀ s1 : Shell, map_find s1.variables_ v = some d0 →
      loopBody s1 (n + 1) v
        = Except.ok ((s1.print (echoLine v)).print [Tok.dbl d0, Tok.endl], n + 1 + 1) := by
    intro s1 hm
    rw [hsecond, evaluateExpression_eval _ v hlv hna,
      eval_variable (s1.print (echoLine v)) v d0 hm]
    rfl
  exact ⟨d0, _, _, _, ev0, hfirst, map_find_set_self _ v d0,
    key _ (map_find_set_self _ v d0), by simp [Shell.print], rfl⟩

theorem assignment_round_trip_witness :
    isIdentifier "x1".toList = true ∧ "x1".toList ∉ controlWords
    ∧ ("x1".toList ++ " = ".toList ++ "Math.pow(2, 8) ".toList).length < npos
    ∧ ¬ ("==".toList <:+: trim ("x1".toList ++ " = ".toList ++ "Math.pow(2, 8) ".toList))
    ∧ ∃ d sh0 sh1 sh2,
      evaluateSimpleExpression (newShell []) (trim "Math.pow(2, 8) ".toList) = Except.ok (d, sh0)
      ∧ loopBody (newShell []) 1 ("x1".toList ++ " = ".toList ++ "Math.pow(2, 8) ".toList)
          = Except.ok (sh1, 1 + 1)
      ∧ map_find sh1.variables_ "x1".toList = some d
      ∧ loopBody sh1 (1 + 1) "x1".toList = Except.ok (sh2, 1 + 1 + 1)
      ∧ sh2.cout = sh1.cout ++ echoLine "x1".toList ++ [Tok.dbl d, Tok.endl]
      ∧ sh2.variables_ = sh1.variables_ :=
  ⟨by decide, by decide, by decide, by decide,
    assignment_round_trip (newShell []) 1 "x1".toList "Math.pow(2, 8) ".toList (by decide)
      (by decide) (by decide) (by decide)⟩

/-- C1 as stated fails for an identifier that is a control word. The line `gc = 5`
is an assignment and stores `5` under `gc`; the line `gc` entered next is the control
command: it prints the acknowledgment and evaluates nothing, so the stored value is
not printed. -/
theorem control_word_is_not_evaluated :
    isIdentifier "gc".toList = true
    ∧ (loopBody (newShell []) 1 "gc = 5".toList).map
        (fun r => map_find r.1.variables_ "gc".toList) = Except.ok (some (Dbl.dec "5".toList))
    ∧ (loopBody (newShell []) 1 "gc = 5".toList >>= fun r =>
        (loopBody r.1 r.2 "gc".toList).map (fun q => q.1.cout.drop r.1.cout.length))
        = Except.ok (textLine "Garbage collection completed (simulated)")
    ∧ (loopBody (newShell []) 1 "gc = 5".toList >>= fun r =>
        (loopBody r.1 r.2 "gc".toList).map
          (fun q => decide (Tok.dbl (Dbl.dec "5".toList) ∈ q.1.cout.drop r.1.cout.length)))
        = Except.ok false := by
  decide

/-- C2, as the code has it. In every state that the program reaches from a fresh shell
by input lines none of which assigns to the name `Math.PI` or `Math.E`, evaluating
`Math.PI` yields the literal-table value `3.14159265359` and evaluating `Math.E`
yields `2.71828182846`, with nothing printed: the store has no such key, so the
lookup that comes first does not match. An assignment to such a name does create the
key, which then shadows the literal. -/
theorem math_constants_unless_assigned (input : List Str)
    (hb : ∀ l ∈ input, l.length < npos)
    (hn : ∀ l ∈ input, isAssignment (trim l) →
      targetName (trim l) ≠ "Math.PI".toList ∧ targetName (trim l) ≠ "Math.E".toList) :
    ∃ sh, main input = Except.ok sh
      ∧ evaluateSimpleExpression sh "Math.PI".toList
          = Except.ok (Dbl.dec "3.14159265359".toList, sh)
      ∧ evaluateSimpleExpression sh "Math.E".toList
          = Except.ok (Dbl.dec "2.71828182846".toList, sh) := by
  obtain ⟨sh1, n1, e, i1, i2⟩ := runLoop_invariant
    (fun m => map_find m "Math.PI".toList = none ∧ map_find m "Math.E".toList = none) input hb
    (fun l hl m d hi ha => by
      obtain ⟨n1, n2⟩ := hn l hl ha
      exact ⟨by rw [map_find_set_ne m _ _ d (Ne.symm n1)]; exact hi.1,
        by rw [map_find_set_ne m _ _ d (Ne.symm n2)]; exact hi.2⟩)
    ((newShell []).print bannerText) 1 (by decide)
  refine ⟨sh1.print (textLine "Goodbye!"), ?_, ?_⟩
  · simp only [main, run, e, bind, Except.bind]
    rfl
  · exact eval_math_constants _ i1 i2

theorem math_constants_unless_assigned_witness :
    (∀ l ∈ ["PI = 1".toList, "Math.PI == 3".toList, "x = Math.E".toList], l.length < npos)
    ∧ (∀ l ∈ ["PI = 1".toList, "Math.PI == 3".toList, "x = Math.E".toList],
        isAssignment (trim l) →
          targetName (trim l) ≠ "Math.PI".toList ∧ targetName (trim l) ≠ "Math.E".toList)
    ∧ ∃ sh, main ["PI = 1".toList, "Math.PI == 3".toList, "x = Math.E".toList] = Except.ok sh
      ∧ evaluateSimpleExpression sh "Math.PI".toList
          = Except.ok (Dbl.dec "3.14159265359".toList, sh)
      ∧ evaluateSimpleExpression sh "Math.E".toList
          = Except.ok (Dbl.dec "2.71828182846".toList, sh) :=
  ⟨by decide, by decide, math_constants_unless_assigned _ (by decide) (by decide)⟩

/-- C2 as stated fails. The line `Math.PI = 3` is an assignment like any other: it
stores `3` under the key `Math.PI`, and from then on evaluating `Math.PI` yields the
stored `3`, not the literal-table value. -/
theorem math_pi_can_be_assigned :
    (main ["Math.PI = 3".toList]).map (fun sh => map_find sh.variables_ "Math.PI".toList)
        = Except.ok (some (Dbl.dec "3".toList))
    ∧ (main ["Math.PI = 3".toList] >>= fun sh =>
        (evaluateSimpleExpression sh "Math.PI".toList).map (fun r => r.1))
        = Except.ok (Dbl.dec "3".toList)
    ∧ (main ["Math.PI = 3".toList] >>= fun sh =>
        (evaluateSimpleExpression sh "Math.PI".toList).map (fun r => r.1))
        ≠ Except.ok (Dbl.dec "3.14159265359".toList) := by
  decide

/-- C3, as the code has it. Take an expression that is not a key of the store. If it
starts with `Math.sqrt(` and the stream reads no number at the head of the argument
text, or it starts with `Math.pow(` and the argument text has no comma or the stream
reads no number at the head of the text on one side of the first comma, then
`evaluateSimpleExpression` prints the error line and returns `0`, throwing nothing.
The argument text runs to the first `)`, or to the end of the expression when there
is none: a missing `)` is not by itself a failure. -/
theorem malformed_call_is_unrecognised (sh : Shell) (expr : Str) (h : expr.length < npos)
    (hv : map_find sh.variables_ expr = none)
    (hm : ("Math.sqrt(".toList.isPrefixOf expr = true
            ∧ (extract_double (argumentText 10 expr)).1 = none)
        ∨ ("Math.pow(".toList.isPrefixOf expr = true
            ∧ (',' ∉ argumentText 9 expr
              ∨ (extract_double ((argumentText 9 expr).takeWhile (fun x => x != ','))).1 = none
              ∨ (extract_double ((argumentText 9 expr).dropWhile (fun x => x != ',')).tail).1
                  = none))) :
    evaluateSimpleExpression sh expr
      = Except.ok (Dbl.dec "0".toList, sh.print errorLine) := by
  rcases hm with ⟨hp, ha⟩ | ⟨hp, ha⟩
  · obtain ⟨f1, f2, r, f3⟩ := sqrt_prefix_facts expr hp
    have es : sqrtBranch expr = Except.ok none := by
      rw [sqrtBranch_eq expr h, if_pos hp]
      simp only [sqrtValue, ha, Option.map_none']
    rw [eval_fallthrough sh expr hv f1 es (powBranch_not_taken expr f2), f3, numberFallback_M]
  · obtain ⟨f1, f2, r, f3⟩ := pow_prefix_facts expr hp
    have ep : powBranch expr = Except.ok none := by
      rw [powBranch_eq expr h, if_pos hp]
      simp only [powValue]
      rcases ha with ha | ha | ha
      · rw [if_neg ha]
      · split_ifs
        · rw [ha]
        · rfl
      · split_ifs
        · rw [ha]
          cases (extract_double (List.takeWhile (fun x => x != ',') (argumentText 9 expr))).1 <;>
            rfl
        · rfl
    rw [eval_fallthrough sh expr hv f1 (sqrtBranch_not_taken expr f2) ep, f3, numberFallback_M]

theorem malformed_call_is_unrecognised_witness :
    "Math.pow(2; 8)".toList.length < npos
    ∧ map_find (newShell []).variables_ "Math.pow(2; 8)".toList = none
    ∧ evaluateSimpleExpression (newShell []) "Math.pow(2; 8)".toList
        = Except.ok (Dbl.dec "0".toList, (newShell []).print errorLine) :=
  ⟨by decide, by decide,
    malformed_call_is_unrecognised (newShell []) "Math.pow(2; 8)".toList (by decide) (by decide)
      (Or.inr ⟨by decide, Or.inl (by decide)⟩)⟩

/-- C3 as stated fails. Without a closing `)` the sqrt and the pow form still compute:
`Math.sqrt(16` yields `sqrt(16)` and `Math.pow(2, 8` yields `pow(2, 8)`, and text after
a leading number is ignored, so `Math.sqrt(16abc)` yields `sqrt(16)`; nothing is
printed. And a stored variable of that very name wins: after `Math.sqrt(abc) = 5`
the expression `Math.sqrt(abc)` yields the stored `5`. -/
theorem unclosed_call_still_computes :
    evaluateSimpleExpression (newShell []) "Math.sqrt(16".toList
        = Except.ok (Dbl.sqrt (Dbl.dec "16".toList), newShell [])
    ∧ evaluateSimpleExpression (newShell []) "Math.pow(2, 8".toList
        = Except.ok (Dbl.pow (Dbl.dec "2".toList) (Dbl.dec "8".toList), newShell [])
    ∧ evaluateSimpleExpression (newShell []) "Math.sqrt(16abc)".toList
        = Except.ok (Dbl.sqrt (Dbl.dec "16".toList), newShell [])
    ∧ (processCommand (newShell []) "Math.sqrt(abc) = 5".toList >>= fun sh =>
        (evaluateSimpleExpression sh "Math.sqrt(abc)".toList).map
          (fun r => (r.1, decide (r.2 = sh))))
        = Except.ok (Dbl.dec "5".toList, true) := by
  decide

/-- C4. The variable store is changed by assignment only: processing a line that is a
control command, or has no `=`, or contains `==`, never throws and leaves the store
exactly as it was; and `evaluateSimpleExpression`, on a known or an unknown name alike,
leaves the store as it was. -/
theorem store_changed_only_by_assignment (sh : Shell) (input : Str)
    (h : input.length < npos)
    (hc : input ∈ controlWords ∨ '=' ∉ input ∨ "==".toList <:+: input) :
    (∃ sh1, processCommand sh input = Except.ok sh1 ∧ sh1.variables_ = sh.variables_)
    ∧ (∃ r, evaluateSimpleExpression sh input = Except.ok r
        ∧ r.2.variables_ = sh.variables_) := by
  constructor
  · have hna : ¬ isAssignment input := by
      rcases hc with hc | hc | hc
      · exact control_not_assignment input hc
      · exact fun c => hc c.1
      · exact fun c => c.2 hc
    obtain ⟨sh1, _, e1, _, _, _, e5, _⟩ := processCommand_effect sh input h
    exact ⟨sh1, e1, e5 hna⟩
  · obtain ⟨d, out, e, _⟩ := eval_effect sh input h
    exact ⟨_, e, rfl⟩

theorem store_changed_only_by_assignment_witness :
    "a == b".toList.length < npos
    ∧ ("a == b".toList ∈ controlWords ∨ '=' ∉ "a == b".toList
        ∨ "==".toList <:+: "a == b".toList)
    ∧ (∃ sh1, processCommand (newShell []) "a == b".toList = Except.ok sh1
        ∧ sh1.variables_ = (newShell []).variables_)
    ∧ (∃ r, evaluateSimpleExpression (newShell []) "a == b".toList = Except.ok r
        ∧ r.2.variables_ = (newShell []).variables_) :=
  ⟨by decide, by decide,
    store_changed_only_by_assignment (newShell []) "a == b".toList (by decide) (by decide)⟩

/-- C5. From a running session, one pass through the loop body never throws, and it
leaves `running_` false exactly when the line, trimmed of leading and trailing spaces
and tabs, is `exit` or `quit`. -/
theorem running_cleared_iff_exit (sh : Shell) (n : Int) (line : Str)
    (hr : sh.running_ = true) (h : line.length < npos) :
    ∃ sh1 n1, loopBody sh n line = Except.ok (sh1, n1)
      ∧ (sh1.running_ = false ↔ (trim line = "exit".toList ∨ trim line = "quit".toList)) := by
  obtain ⟨sh1, _, e1, _, _, e4, _, _⟩ := loopBody_effect sh n line h
  refine ⟨sh1, _, e1, ?_⟩
  rw [e4]
  by_cases hx : isExit (trim line)
  · rw [if_pos hx]
    exact ⟨fun _ => hx, fun _ => rfl⟩
  · rw [if_neg hx, hr]
    exact ⟨fun c => Bool.noConfusion c, fun c => absurd c hx⟩

theorem running_cleared_iff_exit_witness :
    (newShell []).running_ = true ∧ " \tquit ".toList.length < npos
    ∧ ∃ sh1 n1, loopBody (newShell []) 1 " \tquit ".toList = Except.ok (sh1, n1)
      ∧ (sh1.running_ = false
          ↔ (trim " \tquit ".toList = "exit".toList ∨ trim " \tquit ".toList = "quit".toList)) :=
  ⟨by decide, by decide,
    running_cleared_iff_exit (newShell []) 1 " \tquit ".toList (by decide) (by decide)⟩

/-- C6, as the code has it. While no line is `exit` or `quit`, and fewer than
`2 ^ 31 - 1` lines are not empty after trimming (so that `lineNumber` stays an `int`),
the prompt printed before the line at index `k` is read (and, for `k = input.length`,
before the read that finds the input exhausted) shows `1` plus the number of earlier
lines that are not empty after trimming: a processed line, recognised or not, advances
the number by one, and a line of spaces and tabs only does not advance it. The number
shown is at most the largest `int`. -/
theorem prompt_counts_processed_lines (input : List Str)
    (hb : ∀ l ∈ input, l.length < npos ∧ ¬ isExit (trim l))
    (hmax : (countProcessed input : Int) < intMax) (k : Nat)
    (hk : k ≤ input.length) :
    ∃ sh, main input = Except.ok sh
      ∧ (promptNumbers sh.cout)[k]? = some (1 + (countProcessed (input.take k) : Int))
      ∧ 1 + (countProcessed (input.take k) : Int) ≤ intMax := by
  obtain ⟨sh, pre, e1, e2, e3⟩ := main_prompts input hb
  refine ⟨sh, e1, ?_, ?_⟩
  · rw [e2, promptNumbers_append, promptNumbers_textLine, List.append_nil, e3]
    exact promptSeq_getElem input 1 k hk
  · have := countProcessed_take_le input k
    omega

theorem prompt_counts_processed_lines_witness :
    (∀ l ∈ ["foo bar".toList, " \t".toList, "x = 1".toList],
      l.length < npos ∧ ¬ isExit (trim l))
    ∧ (countProcessed ["foo bar".toList, " \t".toList, "x = 1".toList] : Int) < intMax
    ∧ 3 ≤ ["foo bar".toList, " \t".toList, "x = 1".toList].length
    ∧ ∃ sh, main ["foo bar".toList, " \t".toList, "x = 1".toList] = Except.ok sh
      ∧ (promptNumbers sh.cout)[3]?
          = some (1 + (countProcessed
              (["foo bar".toList, " \t".toList, "x = 1".toList].take 3) : Int))
      ∧ 1 + (countProcessed (["foo bar".toList, " \t".toList, "x = 1".toList].take 3) : Int)
          ≤ intMax :=
  ⟨by decide, by decide, by decide,
    prompt_counts_processed_lines _ (by decide) (by decide) 3 (by decide)⟩

/-- C6 as stated fails: with an empty first line, the prompt before the second line
still shows `1`, not `2`; the prompts of the run are `1, 1, 2`. -/
theorem prompt_not_advanced_by_empty_line :
    (main ["".toList, "foo bar".toList]).map (fun sh => promptNumbers sh.cout)
        = Except.ok [1, 1, 2]
    ∧ (main ["".toList, "foo bar".toList]).map (fun sh => (promptNumbers sh.cout)[1]?)
        ≠ Except.ok (some 2) := by
  decide

/-- C7, as the code has it. While no line is `exit` or `quit`, the program prints one
prompt before every read, the read that finds the input exhausted included: one more
prompt than there are lines. The farewell line follows the last prompt and ends the
output. -/
theorem one_prompt_per_read (input : List Str)
    (hb : ∀ l ∈ input, l.length < npos ∧ ¬ isExit (trim l)) :
    ∃ sh pre, main input = Except.ok sh
      ∧ sh.cout = pre ++ [Tok.text "Goodbye!".toList, Tok.endl]
      ∧ (promptNumbers pre).length = input.length + 1
      ∧ (promptNumbers sh.cout).length = input.length + 1 := by
  obtain ⟨sh, pre, e1, e2, e3⟩ := main_prompts input hb
  refine ⟨sh, pre, e1, e2, ?_, ?_⟩
  · rw [e3, promptSeq_length]
  · rw [e2, promptNumbers_append, promptNumbers_textLine, List.append_nil, e3, promptSeq_length]

theorem one_prompt_per_read_witness :
    (∀ l ∈ ["2 + 3".toList, "".toList], l.length < npos ∧ ¬ isExit (trim l))
    ∧ ∃ sh pre, main ["2 + 3".toList, "".toList] = Except.ok sh
      ∧ sh.cout = pre ++ [Tok.text "Goodbye!".toList, Tok.endl]
      ∧ (promptNumbers pre).length = ["2 + 3".toList, "".toList].length + 1
      ∧ (promptNumbers sh.cout).length = ["2 + 3".toList, "".toList].length + 1 :=
  ⟨by decide, one_prompt_per_read _ (by decide)⟩

/-- C7 as stated fails: on empty input no line is read, yet the prompt `js:1> ` is
printed once, right before the farewell line. -/
theorem prompt_printed_at_end_of_input :
    (main []).map (fun sh => sh.cout)
        = Except.ok (textLine "SpiderMonkey stub: Interactive shell initialized" ++ bannerText
            ++ [Tok.text "js:".toList, Tok.int 1, Tok.text "> ".toList,
              Tok.text "Goodbye!".toList, Tok.endl])
    ∧ (main []).map (fun sh => (promptNumbers sh.cout).length) ≠ Except.ok 0 := by
  decide

/-- C8, as the code has it. For an expression that is no key of the store, none of
the six literal strings, and starts with neither `Math.sqrt(` nor `Math.pow(`:
`evaluateSimpleExpression` returns the parsed number, printing nothing, exactly when
the expression after its leading white space (which the stream skips; in a trimmed
line that can be a vertical tab, a form feed or a carriage return) is entirely one
decimal floating-point literal that does not overflow a `double`. In every other
case (characters left after the number, or no number) it prints the error line and
returns `0`. It throws nothing. -/
theorem number_fallback_reads_whole_string (sh : Shell) (expr : Str)
    (hv : map_find sh.variables_ expr = none) (hl : expr ∉ literalKeys)
    (hs : "Math.sqrt(".toList.isPrefixOf expr = false)
    (hp : "Math.pow(".toList.isPrefixOf expr = false) :
    evaluateSimpleExpression sh expr
      = Except.ok (if acceptedNumber (expr.dropWhile isspace) = true
          then (Dbl.dec (expr.dropWhile isspace), sh)
          else (Dbl.dec "0".toList, sh.print errorLine)) := by
  rw [eval_fallthrough sh expr hv hl (sqrtBranch_not_taken expr hs) (powBranch_not_taken expr hp)]
  congr 1
  rcases numberFallback_cases sh expr with ⟨d, e1, e2⟩ | ⟨e1, e2⟩
  · obtain ⟨a1, a2⟩ := (extract_double_whole expr d).mp e1
    rw [e2, if_pos a1, a2]
  · have a1 : ¬ acceptedNumber (expr.dropWhile isspace) = true := fun c =>
      e1 _ ((extract_double_whole expr _).mpr ⟨c, rfl⟩)
    rw [e2, if_neg a1]

theorem number_fallback_reads_whole_string_witness :
    map_find (newShell []).variables_ "12abc".toList = none
    ∧ "12abc".toList ∉ literalKeys
    ∧ evaluateSimpleExpression (newShell []) "12abc".toList
      = Except.ok (if acceptedNumber ("12abc".toList.dropWhile isspace) = true
          then (Dbl.dec ("12abc".toList.dropWhile isspace), newShell [])
          else (Dbl.dec "0".toList, (newShell []).print errorLine)) :=
  ⟨by decide, by decide,
    number_fallback_reads_whole_string (newShell []) "12abc".toList (by decide) (by decide)
      (by decide) (by decide)⟩

/-- C8 as stated fails. The expression `\r12` (a carriage return, then `12`) is
trimmed, is no variable, no literal string and no call form, and is not as a whole a
floating-point literal; yet the stream skips the carriage return, and
`evaluateSimpleExpression` returns `12` and prints nothing. -/
theorem leading_white_space_is_skipped :
    trim "\r12".toList = "\r12".toList
    ∧ map_find (newShell []).variables_ "\r12".toList = none
    ∧ "\r12".toList ∉ literalKeys
    ∧ "Math.sqrt(".toList.isPrefixOf "\r12".toList = false
    ∧ "Math.pow(".toList.isPrefixOf "\r12".toList = false
    ∧ isFloatLiteral "\r12".toList = false
    ∧ evaluateSimpleExpression (newShell []) "\r12".toList
        = Except.ok (Dbl.dec "12".toList, newShell []) := by
  decide

/-- C9, as the code has it. On a fresh session `vars` prints the heading and then
exactly the two entries of `E` and `PI`, in this order, each as the name, ` = ` and
the stored `double`; the stream shows a `double` with six significant digits, so the
lines read `  E = 2.71828` and `  PI = 3.14159`. After the line `x = 10` it prints
those two and then `  x = 10`. In every state that the program reaches, the names of
the store are in strictly ascending order, and `vars` prints the heading and then the
entries of the store one by one in that order. -/
theorem vars_lists_the_store (input : List Str) (hb : ∀ l ∈ input, l.length < npos) :
    loopBody (newShell []) 1 "vars".toList
      = Except.ok ((newShell []).print
          [Tok.text "Defined variables:".toList, Tok.endl,
            Tok.text "  ".toList, Tok.text "E".toList, Tok.text " = ".toList,
            Tok.dbl (Dbl.dec "2.71828182846".toList), Tok.endl,
            Tok.text "  ".toList, Tok.text "PI".toList, Tok.text " = ".toList,
            Tok.dbl (Dbl.dec "3.14159265359".toList), Tok.endl], 2)
    ∧ (loopBody (newShell []) 1 "vars".toList).map
        (fun r => showOutput (r.1.cout.drop (newShell []).cout.length))
        = Except.ok (some "Defined variables:\n  E = 2.71828\n  PI = 3.14159\n".toList)
    ∧ (loopBody (newShell []) 1 "x = 10".toList >>= fun r =>
        (loopBody r.1 r.2 "vars".toList).map
          (fun q => showOutput (q.1.cout.drop r.1.cout.length)))
        = Except.ok
            (some "Defined variables:\n  E = 2.71828\n  PI = 3.14159\n  x = 10\n".toList)
    ∧ ∃ sh, main input = Except.ok sh
        ∧ keysAscending sh.variables_
        ∧ showVariables sh
          = sh.print ([Tok.text "Defined variables:".toList, Tok.endl]
              ++ (sh.variables_.map (fun p =>
                    [Tok.text "  ".toList, Tok.text p.1, Tok.text " = ".toList, Tok.dbl p.2,
                      Tok.endl])).flatten) := by
  refine ⟨by decide, by decide, by decide, ?_⟩
  obtain ⟨sh1, n1, e, i1, i2⟩ := runLoop_invariant
    (fun m => keysAscending m ∧ m ≠ []) input hb
    (fun l _ m d hi _ => ⟨map_set_ascending m _ d hi.1, map_set_ne_nil m _ d⟩)
    ((newShell []).print bannerText) 1
    (by show keysAscending _ ∧ _ ≠ []; decide)
  refine ⟨sh1.print (textLine "Goodbye!"), ?_, i1, ?_⟩
  · simp only [main, run, e, bind, Except.bind]
    rfl
  · have hne : (sh1.print (textLine "Goodbye!")).variables_.isEmpty = false := by
      cases hv : sh1.variables_ with
      | nil => exact absurd hv i2
      | cons _ _ => simp [Shell.print, hv]
    simp only [showVariables, hne, Bool.false_eq_true, if_false]
    rfl

theorem vars_lists_the_store_witness :
    (∀ l ∈ ["zeta = 1".toList, "alpha = 2".toList, "zeta = 3".toList], l.length < npos)
    ∧ ∃ sh, main ["zeta = 1".toList, "alpha = 2".toList, "zeta = 3".toList] = Except.ok sh
        ∧ keysAscending sh.variables_
        ∧ showVariables sh
          = sh.print ([Tok.text "Defined variables:".toList, Tok.endl]
              ++ (sh.variables_.map (fun p =>
                    [Tok.text "  ".toList, Tok.text p.1, Tok.text " = ".toList, Tok.dbl p.2,
                      Tok.endl])).flatten) :=
  ⟨by decide,
    (vars_lists_the_store ["zeta = 1".toList, "alpha = 2".toList, "zeta = 3".toList]
      (by decide)).2.2.2⟩

/-- C9 as stated fails. On a fresh session the line that `vars` prints for `PI` reads
`  PI = 3.14159`, not `  PI = 3.14159265359`, and the line for `E` reads
`  E = 2.71828`: the stream shows six significant digits of the stored `double`. -/
theorem vars_shows_six_digits :
    (loopBody (newShell []) 1 "vars".toList).map
        (fun r => showOutput (r.1.cout.drop (newShell []).cout.length))
        = Except.ok (some "Defined variables:\n  E = 2.71828\n  PI = 3.14159\n".toList)
    ∧ (loopBody (newShell []) 1 "vars".toList).map
        (fun r => showOutput (r.1.cout.drop (newShell []).cout.length))
        ≠ Except.ok
            (some "Defined variables:\n  E = 2.71828182846\n  PI = 3.14159265359\n".toList)
    ∧ showDouble (Dbl.dec "3.14159265359".toList) = some "3.14159".toList
    ∧ showDouble (Dbl.dec "2.71828182846".toList) = some "2.71828".toList := by
  decide

/-- C10. No input line makes a `substr` or an `erase` throw. When every line is a
string the program can hold (shorter than `npos`), the whole program returns
normally; and for each such line, in any shell state, the trimming statements,
`handleAssignment`, `evaluateSimpleExpression` and the loop body all return normally:
the `out_of_range` branch of the library calls is never taken. -/
theorem no_out_of_range (input : List Str) (hb : ∀ l ∈ input, l.length < npos) :
    (∃ sh, main input = Except.ok sh)
    ∧ ∀ l ∈ input, ∀ (sh : Shell) (n : Int),
        (∃ t, trim_ws l = Except.ok t)
        ∧ (∃ sh1, handleAssignment sh l = Except.ok sh1)
        ∧ (∃ r, evaluateSimpleExpression sh l = Except.ok r)
        ∧ (∃ r, loopBody sh n l = Except.ok r) := by
  constructor
  · obtain ⟨sh1, n1, e, _⟩ := runLoop_invariant (fun _ => True) input hb
      (fun _ _ _ _ _ _ => trivial)
      ((newShell []).print bannerText) 1 trivial
    refine ⟨sh1.print (textLine "Goodbye!"), ?_⟩
    simp only [main, run, e, bind, Except.bind]
    rfl
  · intro l hl sh n
    have h := hb l hl
    refine ⟨⟨_, trim_ws_eq l h⟩, ?_, ?_, ?_⟩
    · by_cases he : '=' ∈ l
      · have hv : (valueText l).length < npos := by
          have h1 := length_trim_le (l.dropWhile (fun x => x != '=')).tail
          have h2 := length_takeWhile_add (fun x => x != '=') l
          simp only [List.length_tail] at h1
          simp only [valueText]
          omega
        obtain ⟨d, out, e, _⟩ := eval_effect sh (valueText l) hv
        rw [handleAssignment_eq sh l h he, e]
        exact ⟨_, rfl⟩
      · have hc : find_char l '=' = npos := (find_char_eq_npos_iff _ _ h).mpr he
        exact ⟨sh, by simp only [handleAssignment, hc, if_true]; rfl⟩
    · obtain ⟨d, out, e, _⟩ := eval_effect sh l h
      exact ⟨_, e⟩
    · obtain ⟨sh1, _, e, _⟩ := loopBody_effect sh n l h
      exact ⟨_, e⟩

theorem no_out_of_range_witness :
    (∀ l ∈ ["".toList, " \t ".toList, "=".toList, "Math.sqrt(".toList, "Math.pow(".toList,
        "Math.pow(,".toList], l.length < npos)
    ∧ (∃ sh, main ["".toList, " \t ".toList, "=".toList, "Math.sqrt(".toList,
        "Math.pow(".toList, "Math.pow(,".toList] = Except.ok sh)
    ∧ ∀ l ∈ ["".toList, " \t ".toList, "=".toList, "Math.sqrt(".toList, "Math.pow(".toList,
        "Math.pow(,".toList], ∀ (sh : Shell) (n : Int),
        (∃ t, trim_ws l = Except.ok t)
        ∧ (∃ sh1, handleAssignment sh l = Except.ok sh1)
        ∧ (∃ r, evaluateSimpleExpression sh l = Except.ok r)
        ∧ (∃ r, loopBody sh n l = Except.ok r) :=
  ⟨by decide, no_out_of_range _ (by decide)⟩

end InteractiveShell
